import Mathlib

/-!
Verification of the caption-reconciliation core of `scripts/transcriptgrab.py`.

Python strings are embedded as `List Char`; Python floats (timestamps) are
embedded as exact fractions (`Frac`) so that every definition evaluates by
kernel reduction.  Each definition mirrors one function of the source file
and keeps its name where Lean allows it.
-/

/-- Exact fraction model of a Python float timestamp value.  The denominator
is kept positive by construction. -/
structure Frac where
  num : Int
  den : Nat
  den_pos : 0 < den

/-- Embed a natural number as a `Frac`. -/
def Frac.ofNat (n : Nat) : Frac := ⟨n, 1, Nat.one_pos⟩

/-- Embedding of `a < b` on fraction values, by cross multiplication. -/
def Frac.lt (a b : Frac) : Prop := a.num * (b.den : Int) < b.num * (a.den : Int)

/-- Embedding of `a ≤ b` on fraction values, by cross multiplication. -/
def Frac.le (a b : Frac) : Prop := a.num * (b.den : Int) ≤ b.num * (a.den : Int)

instance (a b : Frac) : Decidable (Frac.lt a b) :=
  inferInstanceAs (Decidable (a.num * (b.den : Int) < b.num * (a.den : Int)))

instance (a b : Frac) : Decidable (Frac.le a b) :=
  inferInstanceAs (Decidable (a.num * (b.den : Int) ≤ b.num * (a.den : Int)))

/-- Addition of fraction values. -/
def Frac.add (a b : Frac) : Frac :=
  ⟨a.num * (b.den : Int) + b.num * (a.den : Int), a.den * b.den, Nat.mul_pos a.den_pos b.den_pos⟩

/-- Subtraction of fraction values. -/
def Frac.sub (a b : Frac) : Frac :=
  ⟨a.num * (b.den : Int) - b.num * (a.den : Int), a.den * b.den, Nat.mul_pos a.den_pos b.den_pos⟩

/-- Python falsiness of a float: the value is `0.0`. -/
def Frac.isZero (a : Frac) : Prop := a.num = 0

instance (a : Frac) : Decidable (Frac.isZero a) := inferInstanceAs (Decidable (a.num = 0))

/-- Embedding of `LONG_PAUSE_SEC = 1.5` from the source. -/
def LONG_PAUSE_SEC : Frac := ⟨3, 2, by decide⟩

/-- The whitespace characters recognised by Python's `str.split`, `str.strip`
and the `\s` regex class in the ASCII range. -/
def pyIsSpace (c : Char) : Bool :=
  c == ' ' || c == '\t' || c == '\n' || c == '\x0d' || c == '\x0b' || c == '\x0c'

/-- A character matched by `WORD_RE = [A-Za-z0-9']+`. -/
def isWordChar (c : Char) : Bool := c.isAlpha || c.isDigit || c == '\''

/-- Shorthand to write an embedded Python string. -/
def str (s : String) : List Char := s.toList

/-- Maximal runs of characters satisfying `p` (the semantics of
`re.findall(p+, s)` and, with `p` = non-whitespace, of `str.split()`). -/
def splitRuns (p : Char → Bool) : List Char → List (List Char)
  | [] => []
  | [c] => if p c then [[c]] else []
  | c :: d :: rest =>
    if p c then
      if p d then
        match splitRuns p (d :: rest) with
        | [] => [[c]]
        | w :: ws => (c :: w) :: ws
      else [c] :: splitRuns p (d :: rest)
    else splitRuns p (d :: rest)

/-- Python `text.split()`: whitespace-separated words. -/
def words (s : List Char) : List (List Char) := splitRuns (fun c => !pyIsSpace c) s

/-- Python `" ".join(ws)`. -/
def pyJoinSpace : List (List Char) → List Char
  | [] => []
  | [w] => w
  | w :: ws => w ++ ' ' :: pyJoinSpace ws

/-- Python `s.lstrip()`. -/
def pyLstrip (s : List Char) : List Char := s.dropWhile pyIsSpace

/-- Python `s.rstrip()`. -/
def pyRstrip (s : List Char) : List Char := (s.reverse.dropWhile pyIsSpace).reverse

/-- Python `s.strip()`. -/
def pyStrip (s : List Char) : List Char := pyRstrip (pyLstrip s)

/-- Python substring test `needle in hay` on strings. -/
def strContains (hay needle : List Char) : Bool :=
  match hay with
  | [] => needle.isEmpty
  | _ :: t => needle.isPrefixOf hay || strContains t needle

/-- Embedding of `normalize_for_compare` from the source:
`" ".join(WORD_RE.findall(text.lower()))`. -/
def normalize_for_compare (text : List Char) : List Char :=
  pyJoinSpace (splitRuns isWordChar (text.map Char.toLower))

/-- Per-word normalisation used by `strip_overlap`:
`re.sub(r"[^A-Za-z0-9']+", "", word).lower()`. -/
def normWord (w : List Char) : List Char := (w.filter isWordChar).map Char.toLower

/-- The descending search of `strip_overlap`'s `for count in range(max_overlap, 0, -1)`
loop: the largest `count ≤ bound` with
`previous_norm[-count:] == new_norm[:count]`, if any. -/
def findOverlap (previous_norm new_norm : List (List Char)) : Nat → Option Nat
  | 0 => none
  | k + 1 =>
    if previous_norm.drop (previous_norm.length - (k + 1)) = new_norm.take (k + 1) then
      some (k + 1)
    else findOverlap previous_norm new_norm k

/-- Embedding of `strip_overlap` from the source. -/
def strip_overlap (previous_text new_text : List Char) (max_words : Nat) : List Char :=
  let previous_words := words previous_text
  let new_words := words new_text
  if previous_words.isEmpty || new_words.isEmpty then new_text
  else
    let previous_norm := previous_words.map normWord
    let new_norm := new_words.map normWord
    let max_overlap := min (min previous_norm.length new_norm.length) max_words
    match findOverlap previous_norm new_norm max_overlap with
    | some count => pyStrip (pyJoinSpace (new_words.drop count))
    | none => new_text

/-- Embedding of `merge_segment_text` from the source.  The Python function mutates
`current` in place; the embedding returns the updated buffer. -/
def merge_segment_text (current : List (List Char)) (new_text : List Char) : List (List Char) :=
  if new_text.isEmpty then current
  else
    match current.getLast? with
    | none => current ++ [new_text]
    | some last_text =>
      let last_norm := normalize_for_compare last_text
      let new_norm := normalize_for_compare new_text
      if new_norm.isEmpty then current
      else if last_norm = new_norm then current
      else if !last_norm.isEmpty && strContains new_norm last_norm then
        current.dropLast ++ [new_text]
      else if strContains last_norm new_norm then current
      else
        let trimmed := strip_overlap last_text new_text 12
        if trimmed.isEmpty then current else current ++ [trimmed]

/-- Embedding of `Segment` from the source (`end` is a reserved word in Lean, so the
field is called `endTime`). -/
structure Segment where
  start : Frac
  endTime : Frac
  text : List Char

/-- Embedding of `paragraphs.append(" ".join(current).strip())` guarded by `if current:`. -/
def flushPar (paragraphs : List (List Char)) (current : List (List Char)) : List (List Char) :=
  if current.isEmpty then paragraphs else paragraphs ++ [pyStrip (pyJoinSpace current)]

/-- The segment loop of `segments_to_paragraphs`, with explicit state
(paragraph list, current word-fragment buffer, last emitted end time). -/
def stpLoop : List Segment → List (List Char) → List (List Char) → Option Frac → List (List Char)
  | [], paragraphs, current, _ => flushPar paragraphs current
  | seg :: rest, paragraphs, current, last_end =>
    if seg.text.isEmpty then
      stpLoop rest (flushPar paragraphs current) [] (some seg.endTime)
    else
      let doFlush := match last_end with
        | some le => decide (Frac.lt LONG_PAUSE_SEC (Frac.sub seg.start le))
        | none => false
      let paragraphs' := if doFlush then flushPar paragraphs current else paragraphs
      let current' := if doFlush then [] else current
      stpLoop rest paragraphs' (merge_segment_text current' seg.text) (some seg.endTime)

/-- Embedding of `segments_to_paragraphs` from the source. -/
def segments_to_paragraphs (segments : List Segment) : List (List Char) :=
  (stpLoop segments [] [] none).filter (fun p => !p.isEmpty)

/-- Python `value.splitlines()` (modelling only the `\n` terminator; the
parser strips `\r` separately with `rstrip`). -/
def pySplitlines : List Char → List (List Char)
  | [] => []
  | c :: rest =>
    if c = '\n' then [] :: pySplitlines rest
    else
      match pySplitlines rest with
      | [] => [[c]]
      | l :: ls => (c :: l) :: ls

/-- The body of one `<[^>]+>` regex match attempt: given the characters
after a `<`, if they read `inner ++ '>' :: after` with `inner` non-empty
and free of `>`, return the remainder `after`. -/
def tagSplit (rest : List Char) : Option (List Char) :=
  match rest.dropWhile (fun d => d ≠ '>') with
  | [] => none
  | _ :: after => if (rest.takeWhile (fun d => d ≠ '>')).isEmpty then none else some after

/-- Embedding of `re.sub(r"<[^>]+>", "", value)`: remove inline angle-bracket tags,
leftmost non-overlapping.  The fuel argument only bounds the recursion;
each step consumes at least one character, so `s.length` is enough. -/
def removeTagsGo : Nat → List Char → List Char
  | 0, s => s
  | _ + 1, [] => []
  | fuel + 1, c :: rest =>
    if c = '<' then
      match tagSplit rest with
      | some after => removeTagsGo fuel after
      | none => c :: removeTagsGo fuel rest
    else c :: removeTagsGo fuel rest

/-- Embedding of `re.sub(r"<[^>]+>", "", value)`. -/
def removeTags (s : List Char) : List Char := removeTagsGo s.length s

/-- Model of the stdlib `html.unescape` collaborator, restricted to the
common named and numeric entities found in caption payloads; all other
text passes through unchanged. -/
def htmlUnescape : List Char → List Char
  | [] => []
  | '&' :: 'a' :: 'm' :: 'p' :: ';' :: rest => '&' :: htmlUnescape rest
  | '&' :: 'l' :: 't' :: ';' :: rest => '<' :: htmlUnescape rest
  | '&' :: 'g' :: 't' :: ';' :: rest => '>' :: htmlUnescape rest
  | '&' :: 'q' :: 'u' :: 'o' :: 't' :: ';' :: rest => '"' :: htmlUnescape rest
  | '&' :: 'a' :: 'p' :: 'o' :: 's' :: ';' :: rest => '\'' :: htmlUnescape rest
  | '&' :: '#' :: '3' :: '9' :: ';' :: rest => '\'' :: htmlUnescape rest
  | c :: rest => c :: htmlUnescape rest

/-- Embedding of `value.replace(">>", " ")`. -/
def replaceSpeakerMarks : List Char → List Char
  | '>' :: '>' :: rest => ' ' :: replaceSpeakerMarks rest
  | c :: rest => c :: replaceSpeakerMarks rest
  | [] => []

/-- Embedding of `re.sub(r"\s+", " ", value)`: collapse each whitespace run to a single
space. -/
def subWs : List Char → List Char
  | [] => []
  | [c] => if pyIsSpace c then [' '] else [c]
  | c :: d :: rest =>
    if pyIsSpace c then
      if pyIsSpace d then subWs (d :: rest)
      else ' ' :: subWs (d :: rest)
    else c :: subWs (d :: rest)

/-- Embedding of `clean_text` from the source. -/
def clean_text (value : List Char) : List Char :=
  pyStrip (subWs (replaceSpeakerMarks (htmlUnescape (removeTags value))))

/-- Match exactly `n` decimal digits, returning them and the remainder. -/
def takeDigits : Nat → List Char → Option (List Char × List Char)
  | 0, s => some ([], s)
  | _ + 1, [] => none
  | n + 1, c :: rest =>
    if c.isDigit then (takeDigits n rest).map (fun p => (c :: p.1, p.2)) else none

/-- Match one fixed character. -/
def expectChar (c : Char) : List Char → Option (List Char)
  | [] => none
  | d :: rest => if d = c then some rest else none

/-- Match a fixed character sequence. -/
def expectSeq (pat s : List Char) : Option (List Char) :=
  if pat.isPrefixOf s then some (s.drop pat.length) else none

/-- Match the timestamp sub-pattern `\d{2}:\d{2}(?::\d{2})?\.\d{3}` at the
head of the input, with the regex's greedy treatment of the optional
`:\d{2}` group.  Returns the matched text and the remainder. -/
def matchTs (s : List Char) : Option (List Char × List Char) :=
  (takeDigits 2 s).bind fun p1 =>
  (expectChar ':' p1.2).bind fun s2 =>
  (takeDigits 2 s2).bind fun p2 =>
    let withOpt : Option (List Char × List Char) :=
      (expectChar ':' p2.2).bind fun s4 =>
      (takeDigits 2 s4).bind fun p3 =>
      (expectChar '.' p3.2).bind fun s6 =>
      (takeDigits 3 s6).map fun p4 =>
        (p1.1 ++ ':' :: p2.1 ++ ':' :: p3.1 ++ '.' :: p4.1, p4.2)
    match withOpt with
    | some r => some r
    | none =>
      (expectChar '.' p2.2).bind fun s4 =>
      (takeDigits 3 s4).map fun p4 =>
        (p1.1 ++ ':' :: p2.1 ++ '.' :: p4.1, p4.2)

/-- Match the whole `TIMESTAMP_RE` pattern at the head of the input,
returning the two captured timestamp strings. -/
def matchArrow (s : List Char) : Option (List Char × List Char) :=
  (matchTs s).bind fun p1 =>
  (expectSeq (str "-->") (p1.2.dropWhile pyIsSpace)).bind fun s2 =>
  (matchTs (s2.dropWhile pyIsSpace)).map fun p2 => (p1.1, p2.1)

/-- Embedding of `TIMESTAMP_RE.search`: leftmost match of the timestamp-arrow pattern. -/
def reSearchArrow : List Char → Option (List Char × List Char)
  | [] => none
  | s@(_ :: rest) =>
    match matchArrow s with
    | some r => some r
    | none => reSearchArrow rest

/-- Python `s.split(sep)` for a single-character separator (keeps empty
parts, like Python). -/
def splitOnChar (sep : Char) : List Char → List (List Char)
  | [] => [[]]
  | c :: rest =>
    if c = sep then [] :: splitOnChar sep rest
    else
      match splitOnChar sep rest with
      | [] => [[c]]
      | l :: ls => (c :: l) :: ls

/-- Python `int` on a decimal digit string. -/
def charsToNat (s : List Char) : Nat := s.foldl (fun a c => 10 * a + (c.toNat - 48)) 0

/-- Embedding of `parse_timestamp` from the source.  The `TIMESTAMP_RE` regex guarantees
the value splits into two or three `:`-separated parts whose last part has
exactly one `.`; other shapes (on which the Python would raise) map to 0. -/
def parse_timestamp (value : List Char) : Frac :=
  let parts := splitOnChar ':' value
  match parts with
  | [minutes, seconds] =>
    (match splitOnChar '.' seconds with
     | [sec, ms] =>
       Frac.add (Frac.ofNat (charsToNat minutes * 60 + charsToNat sec))
         ⟨charsToNat ms, 1000, by decide⟩
     | _ => Frac.ofNat 0)
  | [hours, minutes, seconds] =>
    (match splitOnChar '.' seconds with
     | [sec, ms] =>
       Frac.add
         (Frac.ofNat (charsToNat hours * 3600 + charsToNat minutes * 60 + charsToNat sec))
         ⟨charsToNat ms, 1000, by decide⟩
     | _ => Frac.ofNat 0)
  | _ => Frac.ofNat 0

/-- Python `s.strip("﻿")`. -/
def stripCharBoth (c : Char) (s : List Char) : List Char :=
  ((s.dropWhile (fun d => d = c)).reverse.dropWhile (fun d => d = c)).reverse

/-- The loop state of `parse_vtt_to_segments`. -/
structure VttState where
  segments : List Segment
  current_lines : List (List Char)
  current_start : Option Frac
  current_end : Option Frac
  skip_block : Bool

/-- Embedding of `current_end or current_start`: Python's `or` falls back when
`current_end` is `None` or the float `0.0`. -/
def orStart (ce : Option Frac) (cs : Frac) : Frac :=
  match ce with
  | none => cs
  | some e => if e.isZero then cs else e

/-- Emit the pending cue of the VTT loop, if any (the body of the
`if current_start is not None` flush in the source). -/
def vttEmit (st : VttState) : List Segment :=
  match st.current_start with
  | none => st.segments
  | some cs =>
    let segment_text :=
      if st.current_lines.isEmpty then [] else clean_text (pyJoinSpace st.current_lines)
    st.segments ++ [⟨cs, orStart st.current_end cs, segment_text⟩]

/-- One iteration of the line loop of `parse_vtt_to_segments`. -/
def vttStep (st : VttState) (raw_line : List Char) : VttState :=
  let line := pyRstrip (stripCharBoth '﻿' raw_line)
  let stripped := pyStrip line
  if stripped.isEmpty then
    { segments := vttEmit st, current_lines := [], current_start := none,
      current_end := none, skip_block := false }
  else if st.skip_block then st
  else if (str "WEBVTT").isPrefixOf stripped then st
  else if (str "NOTE").isPrefixOf stripped || (str "STYLE").isPrefixOf stripped
      || (str "REGION").isPrefixOf stripped then
    { st with skip_block := true }
  else if stripped.all Char.isDigit then st
  else
    match reSearchArrow stripped with
    | some p =>
      { st with current_start := some (parse_timestamp p.1),
                current_end := some (parse_timestamp p.2) }
    | none =>
      match st.current_start with
      | none => st
      | some _ => { st with current_lines := st.current_lines ++ [stripped] }

/-- Embedding of `parse_vtt_to_segments` from the source. -/
def parse_vtt_to_segments (text : List Char) : List Segment :=
  vttEmit ((pySplitlines text).foldl vttStep ⟨[], [], none, none, false⟩)

/-- Element-tree model for the stdlib XML collaborator (`ET.fromstring`
result): tag, attribute list, text content, direct children. -/
inductive XmlElem where
  | mk (tag : List Char) (attrib : List (List Char × List Char))
       (content : Option (List Char)) (children : List XmlElem)

/-- The element's tag. -/
def XmlElem.tag : XmlElem → List Char
  | .mk t _ _ _ => t

/-- The element's attribute list. -/
def XmlElem.attrib : XmlElem → List (List Char × List Char)
  | .mk _ a _ _ => a

/-- The element's text content (`node.text`). -/
def XmlElem.content : XmlElem → Option (List Char)
  | .mk _ _ c _ => c

/-- The element's direct children. -/
def XmlElem.children : XmlElem → List XmlElem
  | .mk _ _ _ cs => cs

/-- Python `dict.get` on the attribute map. -/
def attribGet (n : XmlElem) (key : List Char) : Option (List Char) :=
  (n.attrib.find? (fun p => p.1 == key)).map Prod.snd

/-- Model of the stdlib `float()` collaborator on attribute strings:
optional surrounding whitespace, optional sign, decimal digits with an
optional fractional part.  `none` models the `ValueError` that `float`
raises on anything else (exponents and the named special values are out
of scope for caption payloads). -/
def pyFloat (s : List Char) : Option Frac :=
  let s := pyStrip s
  let (sign, t) : Int × List Char :=
    match s with
    | '-' :: r => (-1, r)
    | '+' :: r => (1, r)
    | r => (1, r)
  let intPart := t.takeWhile Char.isDigit
  let rest := t.dropWhile Char.isDigit
  match rest with
  | [] =>
    if intPart.isEmpty then none
    else some ⟨sign * charsToNat intPart, 1, Nat.one_pos⟩
  | '.' :: fr =>
    let frd := fr.takeWhile Char.isDigit
    let rest2 := fr.dropWhile Char.isDigit
    if !rest2.isEmpty then none
    else if intPart.isEmpty && frd.isEmpty then none
    else some ⟨sign * (charsToNat intPart * 10 ^ frd.length + charsToNat frd),
               10 ^ frd.length, Nat.pos_pow_of_pos _ (by decide)⟩
  | _ => none

/-- Embedding of `float(node.attrib.get(key, 0))`: a missing attribute defaults to the
integer `0`; a present attribute that `float` rejects raises, modelled by
`Except.error`. -/
def attrFloat (n : XmlElem) (key : List Char) : Except Unit Frac :=
  match attribGet n key with
  | none => .ok (Frac.ofNat 0)
  | some s =>
    match pyFloat s with
    | some v => .ok v
    | none => .error ()

/-- The `for node in root.findall("text")` loop of `parse_transcript_xml`:
one `Segment` per node, aborting (like the uncaught `ValueError`) as soon
as a `float()` conversion fails. -/
def parseTextNodes : List XmlElem → Except Unit (List Segment)
  | [] => .ok []
  | node :: rest => do
    let start ← attrFloat node (str "start")
    let duration ← attrFloat node (str "dur")
    let segs ← parseTextNodes rest
    pure (⟨start, Frac.add start duration, clean_text (node.content.getD [])⟩ :: segs)

/-- Embedding of `parse_transcript_xml` from the source, parameterised by the stdlib
XML parser collaborator (`ET.fromstring`), whose failure (`ET.ParseError`,
the only exception the source catches) is modelled as `none`.  The result
is `Except` because `float()` conversion errors inside the loop are not
caught by the source and propagate. -/
def parse_transcript_xml (xmlParse : List Char → Option XmlElem) (text : List Char) :
    Except Unit (List Segment) :=
  match xmlParse text with
  | none => .ok []
  | some root =>
    parseTextNodes (root.children.filter (fun n => n.tag == str "text"))

/-- Embedding of `TimedTextTrack` from the source. -/
structure TimedTextTrack where
  lang_code : List Char
  name : List Char
  kind : List Char
  is_generated : Bool
deriving DecidableEq

/-- Embedding of `CaptionTrack` from the source. -/
structure CaptionTrack where
  language_code : List Char
  name : List Char
  kind : List Char
  base_url : List Char
  is_generated : Bool
deriving DecidableEq

/-- Lexicographic order on the Python sort key
`(track.is_generated, len(track.lang_code))`. -/
def keyLe (a b : Nat × Nat) : Prop := a.1 < b.1 ∨ (a.1 = b.1 ∧ a.2 ≤ b.2)

instance (a b : Nat × Nat) : Decidable (keyLe a b) :=
  inferInstanceAs (Decidable (a.1 < b.1 ∨ (a.1 = b.1 ∧ a.2 ≤ b.2)))

/-- The Python sort key of `select_timedtext_track`. -/
def ttKey (t : TimedTextTrack) : Nat × Nat :=
  ((if t.is_generated then 1 else 0), t.lang_code.length)

/-- The Python sort key of `select_caption_track`. -/
def ctKey (t : CaptionTrack) : Nat × Nat :=
  ((if t.is_generated then 1 else 0), t.language_code.length)

/-- The matching predicate of `select_timedtext_track`. -/
def ttMatches (lang : List Char) (t : TimedTextTrack) : Bool :=
  t.lang_code == lang || (lang ++ ['-']).isPrefixOf t.lang_code

/-- The matching predicate of `select_caption_track`. -/
def ctMatches (lang : List Char) (t : CaptionTrack) : Bool :=
  t.language_code == lang || (lang ++ ['-']).isPrefixOf t.language_code

/-- Embedding of `select_timedtext_track` from the source: filter the matches, stable
sort by `(is_generated, len(lang_code))`, take the first. -/
def select_timedtext_track (tracks : List TimedTextTrack) (lang : List Char) :
    Option TimedTextTrack :=
  let found := tracks.filter (ttMatches lang)
  (found.insertionSort (fun t u => keyLe (ttKey t) (ttKey u))).head?

/-- Embedding of `select_caption_track` from the source. -/
def select_caption_track (tracks : List CaptionTrack) (lang : List Char) :
    Option CaptionTrack :=
  let found := tracks.filter (ctMatches lang)
  (found.insertionSort (fun t u => keyLe (ctKey t) (ctKey u))).head?

/-- What one attempt of `fetch_url`'s loop observes from the network
collaborator: a successful body, an `urllib.error.HTTPError` with a status
code, or any other exception. -/
inductive FetchOutcome where
  | success (body : List Char)
  | httpError (code : Nat)
  | otherError
deriving DecidableEq

/-- The status codes `{429, 500, 502, 503, 504}` from the source. -/
def transientCodes : List Nat := [429, 500, 502, 503, 504]

/-- How a run of `fetch_url` ends: a returned body, a
`RuntimeError(f"HTTP {code}")`, a `RuntimeError(str(exc))`, or the
final unreachable `raise` after the loop. -/
inductive FetchFinal where
  | ok (body : List Char)
  | httpFail (code : Nat)
  | otherFail
  | exhausted
deriving DecidableEq

/-- Observable trace of one `fetch_url` run: how many attempts were made,
the `time.sleep` durations in order, and the final outcome. -/
structure FetchRun where
  attemptsMade : Nat
  sleeps : List Nat
  result : FetchFinal
deriving DecidableEq

/-- The `for attempt in range(attempts)` loop of `fetch_url`, over an
oracle giving each attempt's outcome.  `fuel` counts the remaining loop
iterations and starts at `attempts`. -/
def fetchGo (oracle : Nat → FetchOutcome) (attempts : Nat) :
    Nat → Nat → List Nat → FetchRun
  | 0, attempt, sleeps => ⟨attempt, sleeps.reverse, .exhausted⟩
  | fuel + 1, attempt, sleeps =>
    match oracle attempt with
    | .success body => ⟨attempt + 1, sleeps.reverse, .ok body⟩
    | .httpError code =>
      if code ∈ transientCodes ∧ attempt < attempts - 1 then
        fetchGo oracle attempts fuel (attempt + 1) ((1 + attempt) :: sleeps)
      else ⟨attempt + 1, sleeps.reverse, .httpFail code⟩
    | .otherError =>
      if attempt < attempts - 1 then
        fetchGo oracle attempts fuel (attempt + 1) ((1 + attempt) :: sleeps)
      else ⟨attempt + 1, sleeps.reverse, .otherFail⟩

/-- Embedding of `fetch_url` from the source (its retry behaviour, abstracted over the
network oracle); `attempts` defaults to `TIMEDTEXT_RETRY_ATTEMPTS = 3` at
every call site. -/
def fetch_url_run (oracle : Nat → FetchOutcome) (attempts : Nat) : FetchRun :=
  fetchGo oracle attempts attempts 0 []

/-- What one strategy of `main`'s fallback chain produces: a
`(transcript, source)` pair, a clean `None`, or a raised `RuntimeError`. -/
inductive StratOutcome where
  | found (transcript source : List Char)
  | nothing
  | error (msg : List Char)
deriving DecidableEq

/-- Python truthiness of `transcript` in `main` (`None` and `""` are
falsy). -/
def truthy : Option (List Char) → Bool
  | none => false
  | some t => !t.isEmpty

/-- The accumulating state of `main`'s strategy chain. -/
structure OrchState where
  transcript : Option (List Char)
  source : Option (List Char)
  tool_errors : List (List Char)

/-- One `if not transcript: try: ... except RuntimeError: ...` block of
`main`. -/
def orchStep (st : OrchState) (label : List Char) (o : StratOutcome) : OrchState :=
  if truthy st.transcript then st
  else
    match o with
    | .found t s => { st with transcript := some t, source := some s }
    | .nothing => st
    | .error m => { st with tool_errors := st.tool_errors ++ [label ++ str ": " ++ m] }

/-- The terminal outcome of `main`'s retrieval: printed transcript
(exit 0), "no transcript" with the accumulated error list (exit 1), or
plain "no transcript" with no errors (exit 2). -/
inductive Terminal where
  | success (transcript source : List Char)
  | erroredFailure (errors : List (List Char))
  | noTranscript
deriving DecidableEq

/-- The strategy chain of `main` over a list of labelled outcomes,
followed by its terminal classification. -/
def orchestrate (outcomes : List (List Char × StratOutcome)) : Terminal :=
  let final := outcomes.foldl (fun st lo => orchStep st lo.1 lo.2) ⟨none, none, []⟩
  match final.transcript with
  | some t =>
    if t.isEmpty then
      if final.tool_errors.isEmpty then .noTranscript else .erroredFailure final.tool_errors
    else .success t (final.source.getD [])
  | none =>
    if final.tool_errors.isEmpty then .noTranscript else .erroredFailure final.tool_errors

/-- Embedding of `main`'s four-strategy fallback chain, with the source's error labels. -/
def main_orchestrate (o1 o2 o3 o4 : StratOutcome) : Terminal :=
  orchestrate [(str "yt-dlp", o1), (str "timedtext", o2),
               (str "watch-page", o3), (str "youtube-transcript-api", o4)]

/-- The labelled error messages accumulated by `main` over a prefix of its
strategy chain. -/
def labeledErrors (outcomes : List (List Char × StratOutcome)) : List (List Char) :=
  outcomes.filterMap fun lo =>
    match lo.2 with
    | .error m => some (lo.1 ++ str ": " ++ m)
    | _ => none

/-! ### Lemmas about character runs and words -/

theorem dropWhile_len_le {α : Type} (p : α → Bool) :
    ∀ l : List α, (l.dropWhile p).length ≤ l.length
  | [] => Nat.le_refl _
  | c :: rest => by
    simp only [List.dropWhile]
    cases p c with
    | true => exact Nat.le_succ_of_le (dropWhile_len_le p rest)
    | false => exact Nat.le_refl _

theorem mem_takeWhile_sat {α : Type} (p : α → Bool) :
    ∀ l : List α, ∀ c ∈ l.takeWhile p, p c = true
  | [], _, h => by simp at h
  | a :: rest, c, h => by
    rw [List.takeWhile] at h
    cases ha : p a with
    | false => rw [ha] at h; simp at h
    | true =>
      rw [ha] at h
      rcases List.mem_cons.mp h with rfl | h2
      · exact ha
      · exact mem_takeWhile_sat p rest c h2

theorem splitRuns_cons_neg (p : Char → Bool) (c : Char) (l : List Char) (hc : p c = false) :
    splitRuns p (c :: l) = splitRuns p l := by
  cases l with
  | nil => simp [splitRuns, hc]
  | cons d rest => simp [splitRuns, hc]

theorem splitRuns_cons_pos (p : Char → Bool) (c : Char) (l : List Char) (hc : p c = true) :
    splitRuns p (c :: l) = (c :: l.takeWhile p) :: splitRuns p (l.dropWhile p) := by
  cases l with
  | nil => simp [splitRuns, hc]
  | cons d rest =>
    cases hd : p d with
    | true =>
      have ihd := splitRuns_cons_pos p d rest hd
      simp only [splitRuns, hc, if_true, hd, ihd, List.takeWhile, List.dropWhile]
    | false =>
      simp only [splitRuns, hc, if_true, hd, if_false, List.takeWhile, List.dropWhile]
      simp [hd]
termination_by l.length
decreasing_by simp only [List.length_cons]; omega

theorem splitRuns_eq_nil_iff (p : Char → Bool) :
    ∀ l : List Char, splitRuns p l = [] ↔ ∀ c ∈ l, p c = false
  | [] => by simp [splitRuns]
  | c :: l => by
    cases hc : p c with
    | true => simp [splitRuns_cons_pos p c l hc, hc]
    | false =>
      rw [splitRuns_cons_neg p c l hc, splitRuns_eq_nil_iff p l]
      constructor
      · intro h d hd
        rcases List.mem_cons.mp hd with rfl | h2
        · exact hc
        · exact h d h2
      · intro h d hd
        exact h d (List.mem_cons_of_mem c hd)

theorem takeWhile_append_neg (p : Char → Bool) (c : Char) (hc : p c = false) :
    ∀ xs ys : List Char, (xs ++ c :: ys).takeWhile p = xs.takeWhile p
  | [], ys => by simp [List.takeWhile, hc]
  | a :: xs, ys => by
    cases ha : p a with
    | true => simp [List.takeWhile, ha, takeWhile_append_neg p c hc xs ys]
    | false => simp [List.takeWhile, ha]

theorem dropWhile_append_neg (p : Char → Bool) (c : Char) (hc : p c = false) :
    ∀ xs ys : List Char, (xs ++ c :: ys).dropWhile p = xs.dropWhile p ++ c :: ys
  | [], ys => by simp [List.dropWhile, hc]
  | a :: xs, ys => by
    cases ha : p a with
    | true => simp [List.dropWhile, ha, dropWhile_append_neg p c hc xs ys]
    | false => simp [List.dropWhile, ha]

/-- Splitting runs across a separator character that fails `p`. -/
theorem splitRuns_sep (p : Char → Bool) (c : Char) (hc : p c = false) :
    ∀ xs ys : List Char, splitRuns p (xs ++ c :: ys) = splitRuns p xs ++ splitRuns p ys
  | [], ys => by simp [splitRuns, splitRuns_cons_neg p c ys hc]
  | a :: xs, ys => by
    cases ha : p a with
    | false =>
      rw [List.cons_append, splitRuns_cons_neg p a _ ha, splitRuns_cons_neg p a xs ha]
      exact splitRuns_sep p c hc xs ys
    | true =>
      rw [List.cons_append, splitRuns_cons_pos p a _ ha, splitRuns_cons_pos p a xs ha,
          takeWhile_append_neg p c hc xs ys, dropWhile_append_neg p c hc xs ys,
          splitRuns_sep p c hc (xs.dropWhile p) ys]
      simp
termination_by xs _ => xs.length
decreasing_by
  · simp only [List.length_cons]; omega
  · simp only [List.length_cons]
    exact Nat.lt_succ_of_le (dropWhile_len_le p xs)

/-- Appending trailing characters that all fail `p` does not change the runs. -/
theorem splitRuns_append_fail (p : Char → Bool) (s suf : List Char)
    (hsuf : ∀ c ∈ suf, p c = false) : splitRuns p (s ++ suf) = splitRuns p s := by
  cases suf with
  | nil => simp
  | cons c suf' =>
    rw [splitRuns_sep p c (hsuf c (List.mem_cons_self c suf')) s suf',
        (splitRuns_eq_nil_iff p suf').mpr (fun d hd => hsuf d (List.mem_cons_of_mem c hd))]
    simp

theorem words_lstrip (s : List Char) : words (pyLstrip s) = words s := by
  induction s with
  | nil => rfl
  | cons c s ih =>
    cases hq : pyIsSpace c with
    | true =>
      have h1 : pyLstrip (c :: s) = pyLstrip s := by simp [pyLstrip, List.dropWhile, hq]
      rw [h1, ih, words, words, splitRuns_cons_neg _ c s (by simp [hq])]
    | false => simp [pyLstrip, List.dropWhile, hq]

theorem words_rstrip (s : List Char) : words (pyRstrip s) = words s := by
  have hdecomp : s = pyRstrip s ++ (s.reverse.takeWhile pyIsSpace).reverse := by
    rw [pyRstrip]
    have := List.takeWhile_append_dropWhile pyIsSpace s.reverse
    calc s = s.reverse.reverse := by rw [List.reverse_reverse]
    _ = (s.reverse.takeWhile pyIsSpace ++ s.reverse.dropWhile pyIsSpace).reverse := by rw [this]
    _ = _ := by rw [List.reverse_append]
  conv_rhs => rw [hdecomp]
  rw [words, words,
    splitRuns_append_fail _ (pyRstrip s) ((s.reverse.takeWhile pyIsSpace).reverse) ?_]
  intro c hc
  have hmem : c ∈ s.reverse.takeWhile pyIsSpace := List.mem_reverse.mp hc
  simp [mem_takeWhile_sat pyIsSpace s.reverse c hmem]

theorem words_strip (s : List Char) : words (pyStrip s) = words s := by
  rw [pyStrip, words_rstrip, words_lstrip]

/-- All the words of a fragment list, in order. -/
def wordsJ (l : List (List Char)) : List (List Char) := (l.map words).flatten

theorem words_join : ∀ frags : List (List Char), words (pyJoinSpace frags) = wordsJ frags
  | [] => by simp [pyJoinSpace, words, splitRuns, wordsJ]
  | [w] => by simp [pyJoinSpace, wordsJ]
  | w :: x :: frags => by
    have ih := words_join (x :: frags)
    have hsp : (fun c => !pyIsSpace c) ' ' = false := by decide
    calc words (pyJoinSpace (w :: x :: frags))
        = splitRuns (fun c => !pyIsSpace c) (w ++ ' ' :: pyJoinSpace (x :: frags)) := rfl
      _ = words w ++ words (pyJoinSpace (x :: frags)) :=
          splitRuns_sep _ ' ' hsp w (pyJoinSpace (x :: frags))
      _ = words w ++ wordsJ (x :: frags) := by rw [ih]
      _ = wordsJ (w :: x :: frags) := by simp [wordsJ]

theorem wordsJ_append (a b : List (List Char)) : wordsJ (a ++ b) = wordsJ a ++ wordsJ b := by
  simp [wordsJ]

theorem wordsJ_flushPar (ps cur : List (List Char)) :
    wordsJ (flushPar ps cur) = wordsJ ps ++ wordsJ cur := by
  rw [flushPar]
  cases hcur : cur.isEmpty with
  | true =>
    have hc : cur = [] := by cases cur <;> simp_all
    simp [hcur, hc, wordsJ]
  | false =>
    simp only [hcur, Bool.false_eq_true, if_false]
    rw [wordsJ_append]
    simp [wordsJ, words_strip, words_join]

theorem wordsJ_filter_nonempty (l : List (List Char)) :
    wordsJ (l.filter (fun p => !p.isEmpty)) = wordsJ l := by
  induction l with
  | nil => rfl
  | cons a l ih =>
    cases ha : a.isEmpty with
    | true =>
      have ha' : a = [] := by cases a <;> simp_all
      subst ha'
      have hf : List.filter (fun p => !p.isEmpty) ([] :: l) = List.filter (fun p => !p.isEmpty) l := by
        simp [List.filter]
      rw [hf, ih]
      simp [wordsJ, words, splitRuns]
    | false =>
      have hf : List.filter (fun p => !p.isEmpty) (a :: l) = a :: List.filter (fun p => !p.isEmpty) l := by
        simp [List.filter, ha]
      rw [hf]
      simp only [wordsJ, List.map, List.flatten]
      rw [← wordsJ, ← wordsJ, ih]

/-! ### Lemmas about containment, normalisation, and overlap search -/

theorem strContains_nil_needle (hay : List Char) : strContains hay [] = true := by
  cases hay with
  | nil => rfl
  | cons c t => simp [strContains, List.isPrefixOf]

theorem isPrefixOf_self : ∀ l : List Char, l.isPrefixOf l = true
  | [] => rfl
  | c :: t => by simp [List.isPrefixOf, isPrefixOf_self t]

theorem strContains_self (x : List Char) : strContains x x = true := by
  cases x with
  | nil => rfl
  | cons c t => simp [strContains, isPrefixOf_self]

theorem wordChar_toLower_not_space (c : Char) (h : isWordChar (Char.toLower c) = true) :
    pyIsSpace c = false := by
  cases hx : pyIsSpace c with
  | false => rfl
  | true =>
    exfalso
    rw [pyIsSpace] at hx
    simp only [Bool.or_eq_true, beq_iff_eq] at hx
    rcases hx with ((((h1 | h2) | h3) | h4) | h5) | h6 <;> subst_vars <;> exact absurd h (by decide)

theorem words_ne_nil_of_norm_ne_nil (L : List Char) (h : normalize_for_compare L ≠ []) :
    words L ≠ [] := by
  intro hw
  apply h
  have hsp := (splitRuns_eq_nil_iff (fun c => !pyIsSpace c) L).mp hw
  have hnil : splitRuns isWordChar (L.map Char.toLower) = [] := by
    rw [splitRuns_eq_nil_iff]
    intro d hd
    rcases List.mem_map.mp hd with ⟨c, hcL, rfl⟩
    cases hwc : isWordChar (Char.toLower c) with
    | false => rfl
    | true =>
      exfalso
      have hns := wordChar_toLower_not_space c hwc
      have h2 := hsp c hcL
      rw [hns] at h2
      simp at h2
  rw [normalize_for_compare, hnil]
  rfl

theorem ne_nil_of_getLast?_eq_some {α : Type} {l : List α} {a : α}
    (h : l.getLast? = some a) : l ≠ [] := by
  intro hl
  subst hl
  simp at h

/-- Frame property of one `merge_segment_text` step: the buffer is either
unchanged, has only its last element replaced, or gains a single new
fragment at the end. -/
theorem merge_cases (current : List (List Char)) (new_text : List Char) :
    merge_segment_text current new_text = current
    ∨ (current ≠ [] ∧ merge_segment_text current new_text = current.dropLast ++ [new_text])
    ∨ (∃ x, merge_segment_text current new_text = current ++ [x]) := by
  rw [merge_segment_text]
  split
  · left; rfl
  · split
    · right; right; exact ⟨new_text, rfl⟩
    · rename_i last_text hlast
      have hne := ne_nil_of_getLast?_eq_some hlast
      dsimp only
      split_ifs <;>
        first
          | (left; rfl)
          | (right; left; exact ⟨hne, rfl⟩)
          | (right; right; exact ⟨_, rfl⟩)

/-- Embedding of `previous_norm[-k:] == new_norm[:k]`, the overlap test of
`strip_overlap` at width `k`. -/
def overlapAt (pn nn : List (List Char)) (k : Nat) : Prop :=
  pn.drop (pn.length - k) = nn.take k

instance (pn nn : List (List Char)) (k : Nat) : Decidable (overlapAt pn nn k) :=
  inferInstanceAs (Decidable (_ = _))

theorem findOverlap_none_iff (pn nn : List (List Char)) :
    ∀ m, findOverlap pn nn m = none ↔ ∀ k, 1 ≤ k → k ≤ m → ¬ overlapAt pn nn k
  | 0 => by
    constructor
    · intro _ k h1 h2 _; omega
    · intro _; rfl
  | m + 1 => by
    rw [findOverlap]
    split
    · rename_i hov
      constructor
      · intro h; cases h
      · intro h; exact absurd hov (h (m + 1) (by omega) (by omega))
    · rename_i hov
      rw [findOverlap_none_iff pn nn m]
      constructor
      · intro h k h1 h2
        rcases Nat.lt_or_ge k (m + 1) with hk | hk
        · exact h k h1 (by omega)
        · have : k = m + 1 := by omega
          subst this; exact hov
      · intro h k h1 h2
        exact h k h1 (by omega)

theorem findOverlap_some_iff (pn nn : List (List Char)) :
    ∀ m k, findOverlap pn nn m = some k ↔
      (1 ≤ k ∧ k ≤ m ∧ overlapAt pn nn k ∧ ∀ j, k < j → j ≤ m → ¬ overlapAt pn nn j)
  | 0, k => by
    constructor
    · intro h; cases h
    · intro ⟨h1, h2, _, _⟩; omega
  | m + 1, k => by
    rw [findOverlap]
    split
    · rename_i hov
      constructor
      · intro h
        cases h
        exact ⟨by omega, by omega, hov, by intro j hj1 hj2; omega⟩
      · intro ⟨h1, h2, h3, h4⟩
        rcases Nat.lt_or_ge k (m + 1) with hk | hk
        · exact absurd hov (h4 (m + 1) (by omega) (by omega))
        · have : k = m + 1 := by omega
          subst this; rfl
    · rename_i hov
      rw [findOverlap_some_iff pn nn m k]
      constructor
      · intro ⟨h1, h2, h3, h4⟩
        refine ⟨h1, by omega, h3, ?_⟩
        intro j hj1 hj2
        rcases Nat.lt_or_ge j (m + 1) with hj | hj
        · exact h4 j hj1 (by omega)
        · have : j = m + 1 := by omega
          subst this; exact hov
      · intro ⟨h1, h2, h3, h4⟩
        have hk : k ≠ m + 1 := by
          intro hkk; subst hkk; exact hov h3
        exact ⟨h1, by omega, h3, fun j hj1 hj2 => h4 j hj1 (by omega)⟩

theorem isEmpty_false_of_ne_nil {α : Type} {l : List α} (h : l ≠ []) : l.isEmpty = false := by
  cases l with
  | nil => exact absurd rfl h
  | cons a t => rfl

/-- Explicit if-chain form of `merge_segment_text` when the buffer has a
last fragment. -/
theorem merge_eq_of_getLast (current : List (List Char)) (L T : List Char)
    (hlast : current.getLast? = some L) (hT : T ≠ []) :
    merge_segment_text current T =
      (if (normalize_for_compare T).isEmpty = true then current
       else if normalize_for_compare L = normalize_for_compare T then current
       else if (!(normalize_for_compare L).isEmpty
           && strContains (normalize_for_compare T) (normalize_for_compare L)) = true then
         current.dropLast ++ [T]
       else if strContains (normalize_for_compare L) (normalize_for_compare T) = true then
         current
       else if (strip_overlap L T 12).isEmpty = true then current
       else current ++ [strip_overlap L T 12]) := by
  rw [merge_segment_text, hlast]
  simp only [isEmpty_false_of_ne_nil hT, Bool.false_eq_true, if_false]

/-- Explicit form of `strip_overlap` when both texts contain words. -/
theorem strip_overlap_eq (L T : List Char) (hw : words L ≠ []) (hwT : words T ≠ []) :
    strip_overlap L T 12 =
      (match findOverlap ((words L).map normWord) ((words T).map normWord)
          (min (min ((words L).map normWord).length ((words T).map normWord).length) 12) with
       | some count => pyStrip (pyJoinSpace ((words T).drop count))
       | none => T) := by
  rw [strip_overlap]
  simp only [isEmpty_false_of_ne_nil hw, isEmpty_false_of_ne_nil hwT, Bool.or_self,
    Bool.false_eq_true, if_false]

/-- The duplication-freedom relation of the idempotence claim, phrased with
the source's own comparisons: neither normalised text is a substring of the
other (this subsumes equality and emptiness), and no suffix/prefix word
overlap of any width exists. -/
def NoClash (a b : List Char) : Prop :=
  strContains (normalize_for_compare b) (normalize_for_compare a) = false
  ∧ strContains (normalize_for_compare a) (normalize_for_compare b) = false
  ∧ findOverlap ((words a).map normWord) ((words b).map normWord)
      (min ((words a).map normWord).length ((words b).map normWord).length) = none

instance (a b : List Char) : Decidable (NoClash a b) :=
  inferInstanceAs (Decidable
    (strContains (normalize_for_compare b) (normalize_for_compare a) = false
      ∧ strContains (normalize_for_compare a) (normalize_for_compare b) = false
      ∧ findOverlap ((words a).map normWord) ((words b).map normWord)
          (min ((words a).map normWord).length ((words b).map normWord).length) = none))

theorem NoClash.norm_ne_nil_left {a b : List Char} (h : NoClash a b) :
    normalize_for_compare a ≠ [] := by
  intro hn
  have := h.1
  rw [hn, strContains_nil_needle] at this
  cases this

theorem NoClash.norm_ne_nil_right {a b : List Char} (h : NoClash a b) :
    normalize_for_compare b ≠ [] := by
  intro hn
  have := h.2.1
  rw [hn, strContains_nil_needle] at this
  cases this

theorem NoClash.norm_ne {a b : List Char} (h : NoClash a b) :
    normalize_for_compare a ≠ normalize_for_compare b := by
  intro hn
  have := h.1
  rw [hn, strContains_self] at this
  cases this

/-- Under `NoClash`, a merge step appends the incoming text verbatim as a
new fragment. -/
theorem merge_append_of_noClash (current : List (List Char)) (L T : List Char)
    (hlast : current.getLast? = some L) (hT : T ≠ []) (hnc : NoClash L T) :
    merge_segment_text current T = current ++ [T] := by
  rw [merge_eq_of_getLast current L T hlast hT]
  rw [if_neg (by simp [hnc.norm_ne_nil_right]),
      if_neg hnc.norm_ne,
      if_neg (by simp [hnc.1]),
      if_neg (by simp [hnc.2.1])]
  have hov : strip_overlap L T 12 = T := by
    rw [strip_overlap_eq L T
      (words_ne_nil_of_norm_ne_nil L hnc.norm_ne_nil_left)
      (words_ne_nil_of_norm_ne_nil T hnc.norm_ne_nil_right)]
    have hnone := hnc.2.2
    rw [findOverlap_none_iff] at hnone
    have : findOverlap ((words L).map normWord) ((words T).map normWord)
        (min (min ((words L).map normWord).length ((words T).map normWord).length) 12)
        = none := by
      rw [findOverlap_none_iff]
      intro k h1 h2
      exact hnone k h1 (by omega)
    rw [this]
  rw [hov, if_neg (by simp [isEmpty_false_of_ne_nil hT])]

theorem merge_nil (t : List Char) (ht : t ≠ []) : merge_segment_text [] t = [t] := by
  rw [merge_segment_text]
  simp [isEmpty_false_of_ne_nil ht]

theorem getLast?_none_eq_nil {α : Type} {l : List α} (h : l.getLast? = none) : l = [] := by
  cases l with
  | nil => rfl
  | cons a t => simp at h

/-- Invariant of the `segments_to_paragraphs` loop: when the buffer's last
fragment and the remaining non-empty texts form a `NoClash` chain, the loop
emits exactly the words already accumulated plus the words of the remaining
texts, in order. -/
theorem stpLoop_wordsJ :
    ∀ (segs : List Segment) (ps cur : List (List Char)) (le : Option Frac),
      List.Chain' NoClash
        ((cur.getLast?).toList ++ (segs.map Segment.text).filter (fun t => !t.isEmpty)) →
      wordsJ (stpLoop segs ps cur le) = wordsJ ps ++ wordsJ cur ++ wordsJ (segs.map Segment.text)
  | [], ps, cur, le, _ => by
    rw [stpLoop, wordsJ_flushPar]
    simp [wordsJ]
  | seg :: rest, ps, cur, le, h => by
    rw [stpLoop.eq_def]
    dsimp only
    cases hst : seg.text.isEmpty with
    | true =>
      have htxt : seg.text = [] := by cases hx : seg.text <;> simp_all
      rw [if_pos (show (true : Bool) = true from rfl)]
      have hchain : List.Chain' NoClash
          ((([] : List (List Char)).getLast?).toList
            ++ (rest.map Segment.text).filter (fun t => !t.isEmpty)) := by
        have hfil : ((seg :: rest).map Segment.text).filter (fun t => !t.isEmpty)
            = (rest.map Segment.text).filter (fun t => !t.isEmpty) := by
          simp [List.filter, htxt]
        rw [hfil] at h
        cases hlast : cur.getLast? with
        | none => rw [hlast] at h; simpa using h
        | some p =>
          rw [hlast] at h
          simpa using h.tail
      rw [stpLoop_wordsJ rest (flushPar ps cur) [] (some seg.endTime) hchain,
          wordsJ_flushPar]
      simp [wordsJ, htxt, words, splitRuns]
    | false =>
      have htxt : seg.text ≠ [] := by
        intro hx; rw [hx] at hst; cases hst
      rw [if_neg (show ¬((false : Bool) = true) by simp)]
      have hfil : ((seg :: rest).map Segment.text).filter (fun t => !t.isEmpty)
          = seg.text :: (rest.map Segment.text).filter (fun t => !t.isEmpty) := by
        simp [List.filter, hst]
      rw [hfil] at h
      cases hlast : cur.getLast? with
      | none =>
        have hcur : cur = [] := getLast?_none_eq_nil hlast
        subst hcur
        rw [hlast] at h
        simp only [Option.toList, List.nil_append] at h
        have hchain : List.Chain' NoClash
            ((([seg.text] : List (List Char)).getLast?).toList
              ++ (rest.map Segment.text).filter (fun t => !t.isEmpty)) := by
          simpa using h
        cases hdf : (match le with
            | some l => decide (Frac.lt LONG_PAUSE_SEC (Frac.sub seg.start l))
            | none => false) with
        | true =>
          rw [if_pos (show (true : Bool) = true from rfl),
              if_pos (show (true : Bool) = true from rfl), merge_nil seg.text htxt,
              stpLoop_wordsJ rest (flushPar ps []) [seg.text] (some seg.endTime) hchain,
              wordsJ_flushPar]
          simp [wordsJ]
        | false =>
          have hneg : ¬((false : Bool) = true) := by simp
          rw [if_neg hneg, if_neg hneg, merge_nil seg.text htxt,
              stpLoop_wordsJ rest ps [seg.text] (some seg.endTime) hchain]
          simp [wordsJ]
      | some p =>
        rw [hlast] at h
        simp only [Option.toList, List.cons_append, List.nil_append] at h
        rw [List.chain'_cons] at h
        have hnc : NoClash p seg.text := h.1
        have hmerge : merge_segment_text cur seg.text = cur ++ [seg.text] :=
          merge_append_of_noClash cur p seg.text hlast htxt hnc
        have hchain : List.Chain' NoClash
            (((cur ++ [seg.text]).getLast?).toList
              ++ (rest.map Segment.text).filter (fun t => !t.isEmpty)) := by
          rw [List.getLast?_concat]
          simpa using h.2
        cases hdf : (match le with
            | some l => decide (Frac.lt LONG_PAUSE_SEC (Frac.sub seg.start l))
            | none => false) with
        | true =>
          have hchain2 : List.Chain' NoClash
              ((([seg.text] : List (List Char)).getLast?).toList
                ++ (rest.map Segment.text).filter (fun t => !t.isEmpty)) := by
            simpa using h.2
          rw [if_pos (show (true : Bool) = true from rfl),
              if_pos (show (true : Bool) = true from rfl), merge_nil seg.text htxt,
              stpLoop_wordsJ rest (flushPar ps cur) [seg.text] (some seg.endTime) hchain2,
              wordsJ_flushPar]
          simp [wordsJ]
        | false =>
          have hneg : ¬((false : Bool) = true) := by simp
          rw [if_neg hneg, if_neg hneg, hmerge,
              stpLoop_wordsJ rest ps (cur ++ [seg.text]) (some seg.endTime) hchain,
              wordsJ_append]
          simp [wordsJ]

/-! ### Claim theorems -/

/-- C10: one `merge_segment_text` step changes at most the last element of
the buffer (replacing it) or appends at most one new fragment; all
fragments before the last are left unchanged and the buffer never
shrinks. -/
theorem C10_merge_frame (current : List (List Char)) (new_text : List Char) :
    (merge_segment_text current new_text = current
      ∨ (current ≠ [] ∧ merge_segment_text current new_text = current.dropLast ++ [new_text])
      ∨ (∃ x, merge_segment_text current new_text = current ++ [x]))
    ∧ current.dropLast <+: merge_segment_text current new_text
    ∧ current.length ≤ (merge_segment_text current new_text).length := by
  rcases merge_cases current new_text with h | ⟨hne, h⟩ | ⟨x, h⟩
  · refine ⟨Or.inl h, ?_, ?_⟩
    · rw [h]; exact List.dropLast_prefix current
    · rw [h]
  · refine ⟨Or.inr (Or.inl ⟨hne, h⟩), ?_, ?_⟩
    · rw [h]; exact ⟨[new_text], rfl⟩
    · rw [h]
      simp only [List.length_append, List.length_dropLast, List.length_cons, List.length_nil]
      have : 0 < current.length := List.length_pos.mpr hne
      omega
  · refine ⟨Or.inr (Or.inr ⟨x, h⟩), ?_, ?_⟩
    · rw [h]
      exact (List.dropLast_prefix current).trans ⟨[x], rfl⟩
    · rw [h]; simp

/-- C3 counterexample: with `L = "!!"` (empty normalisation) and
`T = "hello"`, normalized(L) is a substring of normalized(T), yet the code
does not replace `L` by `T`: the guard requires normalized(L) to be
non-empty, so `T` is appended instead. -/
theorem C3_counterexample :
    strContains (normalize_for_compare (str "hello")) (normalize_for_compare (str "!!")) = true
    ∧ normalize_for_compare (str "!!") ≠ normalize_for_compare (str "hello")
    ∧ strContains (normalize_for_compare (str "!!")) (normalize_for_compare (str "hello")) = false
    ∧ merge_segment_text [str "!!"] (str "hello") ≠ [str "hello"] := by
  refine ⟨by decide, by decide, by decide, by decide⟩

/-- C3 (amended): exact repeats are discarded; a buffer tail whose
**non-empty** normalisation is a substring of the incoming text's
normalisation is replaced by the incoming text verbatim; an incoming text
normalised to a substring of the tail (when the replace guard failed) is
discarded; and `"hello world"` followed by `"hello world again"` merges to
`"hello world again"`. -/
theorem C3_containment (current : List (List Char)) (L T : List Char)
    (hlast : current.getLast? = some L) (hT : T ≠ [])
    (hTn : normalize_for_compare T ≠ []) :
    (normalize_for_compare L = normalize_for_compare T →
      merge_segment_text current T = current)
    ∧ (normalize_for_compare L ≠ [] →
       normalize_for_compare L ≠ normalize_for_compare T →
       strContains (normalize_for_compare T) (normalize_for_compare L) = true →
       merge_segment_text current T = current.dropLast ++ [T])
    ∧ (¬(normalize_for_compare L ≠ []
          ∧ strContains (normalize_for_compare T) (normalize_for_compare L) = true) →
       strContains (normalize_for_compare L) (normalize_for_compare T) = true →
       merge_segment_text current T = current)
    ∧ merge_segment_text [str "hello world"] (str "hello world again")
        = [str "hello world again"] := by
  refine ⟨?_, ?_, ?_, by decide⟩
  · intro heq
    rw [merge_eq_of_getLast current L T hlast hT,
        if_neg (by simp [hTn]), if_pos heq]
  · intro hLn hne hsub
    rw [merge_eq_of_getLast current L T hlast hT,
        if_neg (by simp [hTn]), if_neg hne,
        if_pos (by simp [isEmpty_false_of_ne_nil hLn, hsub])]
  · intro hguard hsub
    rw [merge_eq_of_getLast current L T hlast hT, if_neg (by simp [hTn])]
    by_cases heq : normalize_for_compare L = normalize_for_compare T
    · rw [if_pos heq]
    · rw [if_neg heq,
          if_neg ?_, if_pos hsub]
      intro hcond
      apply hguard
      simp only [Bool.and_eq_true, Bool.not_eq_true'] at hcond
      refine ⟨?_, hcond.2⟩
      intro hnil
      rw [hnil] at hcond
      simp at hcond

/-- C2: merging a segment sequence whose consecutive non-empty texts never
clash (no containment under the normalised comparison, no suffix/prefix
word overlap) reproduces the original text word for word, in order —
nothing is dropped or altered beyond whitespace normalisation and
paragraph breaks. -/
theorem C2_merge_idempotent (segs : List Segment)
    (h : List.Chain' NoClash ((segs.map Segment.text).filter (fun t => !t.isEmpty))) :
    wordsJ (segments_to_paragraphs segs) = wordsJ (segs.map Segment.text) := by
  rw [segments_to_paragraphs, wordsJ_filter_nonempty,
      stpLoop_wordsJ segs [] [] none (by simpa using h)]
  simp [wordsJ]

/-- C2 witness: two ordinary non-overlapping segments pass through the
merger with all their words intact. -/
theorem C2_merge_idempotent_witness :
    wordsJ (segments_to_paragraphs
      [⟨Frac.ofNat 0, Frac.ofNat 1, str "hello there"⟩,
       ⟨Frac.ofNat 2, Frac.ofNat 3, str "good day"⟩])
    = wordsJ ([⟨Frac.ofNat 0, Frac.ofNat 1, str "hello there"⟩,
       ⟨Frac.ofNat 2, Frac.ofNat 3, str "good day"⟩].map Segment.text) :=
  C2_merge_idempotent _
    (List.chain'_cons.mpr ⟨by decide, List.chain'_singleton _⟩)

/-- C8 counterexample: on a well-formed payload whose `start` attribute is
not numeric, the parser does not return an (empty) segment list — the
`float()` conversion error propagates, a hard failure. -/
def cexTree : XmlElem :=
  .mk (str "transcript") []
    none [.mk (str "text") [(str "start", str "x")] (some (str "hi")) []]

/-- The XML collaborator for the C8 counterexample: it parses exactly the
counterexample payload (which is well-formed XML) into `cexTree`. -/
def xmlParseCex : List Char → Option XmlElem := fun s =>
  if s = str "<transcript><text start=\"x\">hi</text></transcript>" then some cexTree else none

/-- C8 counterexample theorem: the parse of the well-formed payload with a
non-numeric `start` attribute propagates an error instead of returning a
segment list. -/
theorem C8_counterexample :
    xmlParseCex (str "<transcript><text start=\"x\">hi</text></transcript>") = some cexTree
    ∧ parse_transcript_xml xmlParseCex
        (str "<transcript><text start=\"x\">hi</text></transcript>") = .error () :=
  ⟨rfl, rfl⟩

/-- C8 (amended): the parser never propagates an **XML** parse exception:
whenever the XML collaborator fails to produce a tree (malformed XML), the
result is the empty segment sequence, not an error.  (Numeric conversion
of attribute values on well-formed XML is outside this guarantee.) -/
theorem C8_malformed_xml (xmlParse : List Char → Option XmlElem) (input : List Char)
    (h : xmlParse input = none) :
    parse_transcript_xml xmlParse input = .ok [] := by
  rw [parse_transcript_xml, h]

/-- The XML collaborator that rejects every input, for the C8 witness. -/
def xmlParseNone : List Char → Option XmlElem := fun _ => none

/-- C8 witness theorem: a malformed payload yields the empty segment
list. -/
theorem C8_malformed_xml_witness :
    parse_transcript_xml xmlParseNone (str "<not-xml") = .ok [] :=
  C8_malformed_xml xmlParseNone (str "<not-xml") rfl

/-- C1 counterexample: `L = "x don'tstop"`, `T = "don't—stop"` share a
1-word overlap under per-word normalisation (`don'tstop`), none of the
exact-repeat or containment cases applies, yet merging appends nothing:
removing the overlapping word leaves an empty remainder, which the code
discards instead of appending. -/
theorem C1_counterexample :
    overlapAt ((words (str "x don'tstop")).map normWord)
      ((words (str "don't—stop")).map normWord) 1
    ∧ normalize_for_compare (str "x don'tstop") ≠ normalize_for_compare (str "don't—stop")
    ∧ strContains (normalize_for_compare (str "don't—stop"))
        (normalize_for_compare (str "x don'tstop")) = false
    ∧ strContains (normalize_for_compare (str "x don'tstop"))
        (normalize_for_compare (str "don't—stop")) = false
    ∧ min (min ((words (str "x don'tstop")).map normWord).length
        ((words (str "don't—stop")).map normWord).length) 12 = 1
    ∧ merge_segment_text [str "x don'tstop"] (str "don't—stop") = [str "x don'tstop"] := by
  refine ⟨by decide, by decide, by decide, by decide, by decide, by decide⟩

/-- C1 (amended): when the last fragment `L` and the incoming text `T`
share a word overlap of width `k` (largest such `k ≤ 12`, searched from the
cap downwards) and no exact-repeat/containment case applies, merging
appends `T` with its first `k` raw words removed **when that remainder is
non-empty**, and discards `T` when the remainder is empty; with no overlap
at all, `T` is appended verbatim.  In particular `"the quick brown fox"`
followed by `"brown fox jumps over"` yields the single paragraph
`"the quick brown fox jumps over"`. -/
theorem C1_overlap_strip (current : List (List Char)) (L T : List Char)
    (hlast : current.getLast? = some L) (hT : T ≠ [])
    (hTn : normalize_for_compare T ≠ [])
    (hne : normalize_for_compare L ≠ normalize_for_compare T)
    (hni1 : strContains (normalize_for_compare T) (normalize_for_compare L) = false)
    (hni2 : strContains (normalize_for_compare L) (normalize_for_compare T) = false) :
    (∀ k, 1 ≤ k → k ≤ 12 →
      k ≤ ((words L).map normWord).length → k ≤ ((words T).map normWord).length →
      overlapAt ((words L).map normWord) ((words T).map normWord) k →
      (∀ j < min (min ((words L).map normWord).length
          ((words T).map normWord).length) 12 + 1,
        k < j → ¬ overlapAt ((words L).map normWord) ((words T).map normWord) j) →
      ((pyStrip (pyJoinSpace ((words T).drop k)) ≠ [] →
          merge_segment_text current T = current ++ [pyStrip (pyJoinSpace ((words T).drop k))])
        ∧ (pyStrip (pyJoinSpace ((words T).drop k)) = [] →
          merge_segment_text current T = current)))
    ∧ ((∀ k, 1 ≤ k →
          k ≤ min (min ((words L).map normWord).length
            ((words T).map normWord).length) 12 →
          ¬ overlapAt ((words L).map normWord) ((words T).map normWord) k) →
        merge_segment_text current T = current ++ [T])
    ∧ segments_to_paragraphs
        [⟨Frac.ofNat 0, Frac.ofNat 1, str "the quick brown fox"⟩,
         ⟨Frac.ofNat 1, Frac.ofNat 2, str "brown fox jumps over"⟩]
        = [str "the quick brown fox jumps over"] := by
  refine ⟨?_, ?_, by decide⟩
  · intro k hk1 hk12 hkL hkT hov hmax
    have hwL : words L ≠ [] := by
      intro hw
      rw [hw] at hkL
      simp at hkL
      omega
    have hwT : words T ≠ [] := by
      intro hw
      rw [hw] at hkT
      simp at hkT
      omega
    have hfind : findOverlap ((words L).map normWord) ((words T).map normWord)
        (min (min ((words L).map normWord).length ((words T).map normWord).length) 12)
        = some k := by
      rw [findOverlap_some_iff]
      refine ⟨hk1, by omega, hov, ?_⟩
      intro j hj1 hj2
      exact hmax j (by omega) hj1
    have hstrip : strip_overlap L T 12 = pyStrip (pyJoinSpace ((words T).drop k)) := by
      rw [strip_overlap_eq L T hwL hwT, hfind]
    rw [merge_eq_of_getLast current L T hlast hT,
        if_neg (by simp [hTn]), if_neg hne,
        if_neg (by simp [hni1]), if_neg (by simp [hni2]), hstrip]
    constructor
    · intro hrem
      rw [if_neg (by simp [isEmpty_false_of_ne_nil hrem])]
    · intro hrem
      rw [if_pos (by simp [hrem])]
  · intro hno
    have hstrip : strip_overlap L T 12 = T := by
      by_cases hwL : words L = []
      · rw [strip_overlap]
        simp [hwL]
      · by_cases hwT : words T = []
        · rw [strip_overlap]
          simp [hwT]
        · rw [strip_overlap_eq L T hwL hwT]
          have hfind : findOverlap ((words L).map normWord) ((words T).map normWord)
              (min (min ((words L).map normWord).length ((words T).map normWord).length) 12)
              = none := by
            rw [findOverlap_none_iff]
            exact hno
          rw [hfind]
    rw [merge_eq_of_getLast current L T hlast hT,
        if_neg (by simp [hTn]), if_neg hne,
        if_neg (by simp [hni1]), if_neg (by simp [hni2]), hstrip,
        if_neg (by simp [isEmpty_false_of_ne_nil hT])]

/-- C1 witness: the claim's own example, a 2-word overlap stripped from the
incoming cue. -/
theorem C1_overlap_strip_witness :
    merge_segment_text [str "the quick brown fox"] (str "brown fox jumps over")
      = [str "the quick brown fox", str "jumps over"] := by
  have h := (C1_overlap_strip [str "the quick brown fox"]
      (str "the quick brown fox") (str "brown fox jumps over")
      (by decide) (by decide) (by decide) (by decide) (by decide) (by decide)).1
      2 (by decide) (by decide) (by decide) (by decide) (by decide) (by decide)
  exact h.1 (by decide)

theorem pyStrip_ne_nil (t : List Char) (h : words t ≠ []) : pyStrip t ≠ [] := by
  intro he
  apply h
  rw [← words_strip t, he]
  rfl

theorem paragraph_words (m : List (List Char)) :
    words (pyStrip (pyJoinSpace m)) = wordsJ m := by
  rw [words_strip, words_join]

/-- C4 counterexample: a whitespace-only (but non-empty) first text crosses
a pause of more than 1.5 seconds and still yields a single paragraph — the
flushed whitespace paragraph is filtered away. -/
theorem C4_counterexample :
    ([' '] : List Char) ≠ []
    ∧ Frac.lt LONG_PAUSE_SEC (Frac.sub (Frac.ofNat 10) (Frac.ofNat 0))
    ∧ (segments_to_paragraphs [⟨Frac.ofNat 0, Frac.ofNat 0, [' ']⟩,
        ⟨Frac.ofNat 10, Frac.ofNat 11, str "a"⟩]).length = 1 := by
  refine ⟨by decide, by decide, by decide⟩

/-- C4 (amended): for consecutive segments whose texts each contain at
least one word (one non-whitespace character), the merger starts a new
paragraph exactly when the second segment's start minus the previously
emitted end time strictly exceeds `LONG_PAUSE_SEC = 1.5`: a larger gap
yields two paragraphs, otherwise one. -/
theorem C4_pause_split (s1 s2 : Segment)
    (h1 : words s1.text ≠ []) (h2 : words s2.text ≠ []) :
    (segments_to_paragraphs [s1, s2]).length =
      if Frac.lt LONG_PAUSE_SEC (Frac.sub s2.start s1.endTime) then 2 else 1 := by
  have ht1 : s1.text ≠ [] := by
    intro he; apply h1; rw [he]; rfl
  have ht2 : s2.text ≠ [] := by
    intro he; apply h2; rw [he]; rfl
  rw [segments_to_paragraphs]
  rw [stpLoop.eq_def]
  dsimp only
  rw [if_neg (by simp [isEmpty_false_of_ne_nil ht1]),
      if_neg (show ¬((false : Bool) = true) by simp),
      if_neg (show ¬((false : Bool) = true) by simp),
      merge_nil s1.text ht1]
  rw [stpLoop.eq_def]
  dsimp only
  rw [if_neg (by simp [isEmpty_false_of_ne_nil ht2])]
  cases hd : decide (Frac.lt LONG_PAUSE_SEC (Frac.sub s2.start s1.endTime)) with
  | true =>
    rw [if_pos (show (true : Bool) = true from rfl),
        if_pos (show (true : Bool) = true from rfl),
        merge_nil s2.text ht2, stpLoop, if_pos (of_decide_eq_true hd)]
    have hp1 : pyStrip (pyJoinSpace [s1.text]) ≠ [] := pyStrip_ne_nil s1.text h1
    have hp2 : pyStrip (pyJoinSpace [s2.text]) ≠ [] := pyStrip_ne_nil s2.text h2
    simp [flushPar, List.filter, isEmpty_false_of_ne_nil hp1, isEmpty_false_of_ne_nil hp2]
  | false =>
    have hneg : ¬((false : Bool) = true) := by simp
    rw [if_neg hneg, if_neg hneg, stpLoop,
        if_neg (by simp [of_decide_eq_false hd])]
    have hm : wordsJ (merge_segment_text [s1.text] s2.text) ≠ [] := by
      rcases merge_cases [s1.text] s2.text with h | ⟨_, h⟩ | ⟨x, h⟩
      · rw [h]; simp [wordsJ, h1]
      · rw [h]; simp [wordsJ, h2]
      · rw [h]; simp [wordsJ, h1]
    have hmne : merge_segment_text [s1.text] s2.text ≠ [] := by
      intro he; rw [he] at hm; exact hm rfl
    have hp : pyStrip (pyJoinSpace (merge_segment_text [s1.text] s2.text)) ≠ [] := by
      intro he
      apply hm
      rw [← paragraph_words, he]
      rfl
    rw [flushPar, if_neg (by simp [isEmpty_false_of_ne_nil hmne])]
    simp [List.filter, isEmpty_false_of_ne_nil hp]

/-- C4 witness: a 2-second gap splits, a 1-second gap does not. -/
theorem C4_pause_split_witness :
    (segments_to_paragraphs [⟨Frac.ofNat 0, Frac.ofNat 1, str "first bit"⟩,
        ⟨Frac.ofNat 3, Frac.ofNat 4, str "second bit"⟩]).length = 2
    ∧ (segments_to_paragraphs [⟨Frac.ofNat 0, Frac.ofNat 1, str "first bit"⟩,
        ⟨Frac.ofNat 2, Frac.ofNat 3, str "second bit"⟩]).length = 1 := by
  constructor
  · rw [C4_pause_split _ _ (by decide) (by decide)]
    decide
  · rw [C4_pause_split _ _ (by decide) (by decide)]
    decide

theorem keyLe_total (a b : Nat × Nat) : keyLe a b ∨ keyLe b a := by
  rw [keyLe, keyLe]; omega

theorem keyLe_trans (a b c : Nat × Nat) (h1 : keyLe a b) (h2 : keyLe b c) : keyLe a c := by
  rw [keyLe] at *; omega

/-- Head of a stable key-sort: it belongs to the list and its key is
minimal. -/
theorem head_sort_min {α : Type} (key : α → Nat × Nat) (l : List α) (t : α)
    (h : (l.insertionSort (fun a b => keyLe (key a) (key b))).head? = some t) :
    t ∈ l ∧ ∀ u ∈ l, keyLe (key t) (key u) := by
  haveI : IsTotal α (fun a b => keyLe (key a) (key b)) := ⟨fun a b => keyLe_total _ _⟩
  haveI : IsTrans α (fun a b => keyLe (key a) (key b)) := ⟨fun a b c => keyLe_trans _ _ _⟩
  have hperm := List.perm_insertionSort (fun a b => keyLe (key a) (key b)) l
  have hsorted := List.sorted_insertionSort (fun a b => keyLe (key a) (key b)) l
  cases hs : l.insertionSort (fun a b => keyLe (key a) (key b)) with
  | nil => rw [hs] at h; cases h
  | cons x rest =>
    rw [hs] at h hperm hsorted
    have hx : x = t := by
      simp only [List.head?] at h
      exact Option.some.inj h
    subst hx
    constructor
    · exact hperm.mem_iff.mp (List.mem_cons_self x rest)
    · intro u hu
      have hu2 : u ∈ x :: rest := hperm.mem_iff.mpr hu
      rcases List.mem_cons.mp hu2 with rfl | hur
      · rw [keyLe]; omega
      · exact List.rel_of_sorted_cons hsorted u hur

theorem insertionSort_nil_iff {α : Type} (r : α → α → Prop) [DecidableRel r] (l : List α) :
    l.insertionSort r = [] ↔ l = [] := by
  constructor
  · intro h
    have hperm := List.perm_insertionSort r l
    rw [h] at hperm
    exact hperm.symm.eq_nil
  · intro h; rw [h]; rfl

/-- The example track catalogue of the claim:
`[{en, manual}, {en, auto}, {en-US, manual}]`. -/
def exampleTracks : List TimedTextTrack :=
  [⟨str "en", [], [], false⟩, ⟨str "en", [], str "asr", true⟩, ⟨str "en-US", [], [], false⟩]

/-- C5: both track selectors consider exactly the tracks whose language
code equals the requested one or starts with it plus a hyphen, return
`none` when nothing matches (never fabricating a track), and among the
matches a manual track always outranks an auto-generated one; requesting
`"en"` from `[{en, manual}, {en, auto}, {en-US, manual}]` yields the
manual `en` track. -/
theorem C5_track_selection :
    (∀ (tracks : List TimedTextTrack) (lang : List Char),
      (select_timedtext_track tracks lang = none ↔ ∀ t ∈ tracks, ttMatches lang t = false)
      ∧ (∀ t, select_timedtext_track tracks lang = some t →
          t ∈ tracks ∧ ttMatches lang t = true
          ∧ ∀ u ∈ tracks, ttMatches lang u = true → u.is_generated = false →
              t.is_generated = false))
    ∧ (∀ (tracks : List CaptionTrack) (lang : List Char),
      (select_caption_track tracks lang = none ↔ ∀ t ∈ tracks, ctMatches lang t = false)
      ∧ (∀ t, select_caption_track tracks lang = some t →
          t ∈ tracks ∧ ctMatches lang t = true
          ∧ ∀ u ∈ tracks, ctMatches lang u = true → u.is_generated = false →
              t.is_generated = false))
    ∧ select_timedtext_track exampleTracks (str "en") = some ⟨str "en", [], [], false⟩ := by
  refine ⟨?_, ?_, by decide⟩
  · intro tracks lang
    constructor
    · rw [select_timedtext_track]
      constructor
      · intro h t ht
        cases hm : ttMatches lang t with
        | false => rfl
        | true =>
          exfalso
          have hnil : (tracks.filter (ttMatches lang)).insertionSort
              (fun t u => keyLe (ttKey t) (ttKey u)) = [] := by
            cases hs : (tracks.filter (ttMatches lang)).insertionSort
                (fun t u => keyLe (ttKey t) (ttKey u)) with
            | nil => rfl
            | cons x rest => rw [hs] at h; cases h
          rw [insertionSort_nil_iff] at hnil
          have : t ∈ tracks.filter (ttMatches lang) := List.mem_filter.mpr ⟨ht, hm⟩
          rw [hnil] at this
          cases this
      · intro h
        have hnil : tracks.filter (ttMatches lang) = [] := by
          rw [List.filter_eq_nil_iff]
          intro t ht
          rw [h t ht]
          simp
        rw [hnil]
        rfl
    · intro t hsel
      rw [select_timedtext_track] at hsel
      have hmin := head_sort_min ttKey (tracks.filter (ttMatches lang)) t hsel
      have hmem := List.mem_filter.mp hmin.1
      refine ⟨hmem.1, hmem.2, ?_⟩
      intro u hu hum hug
      have hle := hmin.2 u (List.mem_filter.mpr ⟨hu, hum⟩)
      rw [keyLe, ttKey, ttKey] at hle
      rw [hug] at hle
      cases hgen : t.is_generated with
      | false => rfl
      | true => rw [hgen] at hle; simp at hle
  · intro tracks lang
    constructor
    · rw [select_caption_track]
      constructor
      · intro h t ht
        cases hm : ctMatches lang t with
        | false => rfl
        | true =>
          exfalso
          have hnil : (tracks.filter (ctMatches lang)).insertionSort
              (fun t u => keyLe (ctKey t) (ctKey u)) = [] := by
            cases hs : (tracks.filter (ctMatches lang)).insertionSort
                (fun t u => keyLe (ctKey t) (ctKey u)) with
            | nil => rfl
            | cons x rest => rw [hs] at h; cases h
          rw [insertionSort_nil_iff] at hnil
          have : t ∈ tracks.filter (ctMatches lang) := List.mem_filter.mpr ⟨ht, hm⟩
          rw [hnil] at this
          cases this
      · intro h
        have hnil : tracks.filter (ctMatches lang) = [] := by
          rw [List.filter_eq_nil_iff]
          intro t ht
          rw [h t ht]
          simp
        rw [hnil]
        rfl
    · intro t hsel
      rw [select_caption_track] at hsel
      have hmin := head_sort_min ctKey (tracks.filter (ctMatches lang)) t hsel
      have hmem := List.mem_filter.mp hmin.1
      refine ⟨hmem.1, hmem.2, ?_⟩
      intro u hu hum hug
      have hle := hmin.2 u (List.mem_filter.mpr ⟨hu, hum⟩)
      rw [keyLe, ctKey, ctKey] at hle
      rw [hug] at hle
      cases hgen : t.is_generated with
      | false => rfl
      | true => rw [hgen] at hle; simp at hle

/-- C3 witness: the claim's own example, a containment replacement. -/
theorem C3_containment_witness :
    merge_segment_text [str "hello world"] (str "hello world again")
      = [str "hello world again"] :=
  (C3_containment [str "hello world"] (str "hello world") (str "hello world again")
      rfl (by decide) (by decide)).2.2.2

/-- C5 witness: the claim's example catalogue selects the manual `en`
track, and that track really is one of the inputs. -/
theorem C5_track_selection_witness :
    select_timedtext_track exampleTracks (str "en") = some ⟨str "en", [], [], false⟩
    ∧ (⟨str "en", [], [], false⟩ : TimedTextTrack) ∈ exampleTracks
    ∧ ttMatches (str "en") ⟨str "en", [], [], false⟩ = true := by
  have hsel := C5_track_selection.2.2
  have h := (C5_track_selection.1 exampleTracks (str "en")).2 ⟨str "en", [], [], false⟩ hsel
  exact ⟨hsel, h.1, h.2.1⟩

/-- An attempt outcome on which `fetch_url` retries: a transient HTTP
status, or any non-HTTP exception (the bare `except Exception` arm). -/
def retrySignal (o : FetchOutcome) : Prop :=
  (∃ c, o = .httpError c ∧ c ∈ transientCodes) ∨ o = .otherError

/-- Invariant of the `fetch_url` loop: at most `attempts` attempts, sleeps
of `1 + i` seconds after the `i`-th attempt, and every non-final attempt
ended in a retryable signal. -/
theorem fetchGo_spec (oracle : Nat → FetchOutcome) (attempts : Nat) :
    ∀ (fuel attempt : Nat), attempt + fuel = attempts → attempt < attempts →
      (∀ i < attempt, retrySignal (oracle i)) →
      (fetchGo oracle attempts fuel attempt
          (((List.range attempt).map (fun i => 1 + i)).reverse)).attemptsMade ≤ attempts
      ∧ (fetchGo oracle attempts fuel attempt
          (((List.range attempt).map (fun i => 1 + i)).reverse)).sleeps
        = (List.range ((fetchGo oracle attempts fuel attempt
            (((List.range attempt).map (fun i => 1 + i)).reverse)).attemptsMade - 1)).map
            (fun i => 1 + i)
      ∧ (∀ i, i + 1 < (fetchGo oracle attempts fuel attempt
          (((List.range attempt).map (fun i => 1 + i)).reverse)).attemptsMade →
          retrySignal (oracle i))
  | 0, attempt, hsum, hlt, _ => by omega
  | fuel + 1, attempt, hsum, hlt, hprev => by
    rw [fetchGo]
    cases ho : oracle attempt with
    | success body =>
      dsimp only
      refine ⟨by simpa using hlt, by simp, ?_⟩
      intro i hi
      simp at hi
      exact hprev i (by omega)
    | httpError code =>
      dsimp only
      by_cases hcond : code ∈ transientCodes ∧ attempt < attempts - 1
      · rw [if_pos hcond]
        have hsl : ((1 + attempt) :: ((List.range attempt).map (fun i => 1 + i)).reverse)
            = ((List.range (attempt + 1)).map (fun i => 1 + i)).reverse := by
          rw [List.range_succ]
          simp
        rw [hsl]
        have hprev' : ∀ i < attempt + 1, retrySignal (oracle i) := by
          intro i hi
          rcases Nat.lt_or_ge i attempt with h | h
          · exact hprev i h
          · have : i = attempt := by omega
            subst this
            exact Or.inl ⟨code, ho, hcond.1⟩
        exact fetchGo_spec oracle attempts fuel (attempt + 1) (by omega) (by omega) hprev'
      · rw [if_neg hcond]
        refine ⟨by simpa using hlt, by simp, ?_⟩
        intro i hi
        simp at hi
        exact hprev i (by omega)
    | otherError =>
      dsimp only
      by_cases hcond : attempt < attempts - 1
      · rw [if_pos hcond]
        have hsl : ((1 + attempt) :: ((List.range attempt).map (fun i => 1 + i)).reverse)
            = ((List.range (attempt + 1)).map (fun i => 1 + i)).reverse := by
          rw [List.range_succ]
          simp
        rw [hsl]
        have hprev' : ∀ i < attempt + 1, retrySignal (oracle i) := by
          intro i hi
          rcases Nat.lt_or_ge i attempt with h | h
          · exact hprev i h
          · have : i = attempt := by omega
            subst this
            exact Or.inr ho
        exact fetchGo_spec oracle attempts fuel (attempt + 1) (by omega) (by omega) hprev'
      · rw [if_neg hcond]
        refine ⟨by simpa using hlt, by simp, ?_⟩
        intro i hi
        simp at hi
        exact hprev i (by omega)

/-- C6 counterexample: the first attempt raises a non-HTTP exception — not
one of the listed transient statuses — and the code still retries (a
second attempt is made after a 1-second sleep), contradicting "retries
only on HTTP 429/500/502/503/504". -/
def oracleRetriesOther : Nat → FetchOutcome :=
  fun n => if n = 0 then .otherError else .success (str "ok")

/-- C6 counterexample theorem: two attempts were made although the first
attempt's failure was not an HTTP status at all. -/
theorem C6_counterexample :
    oracleRetriesOther 0 = .otherError
    ∧ (fetch_url_run oracleRetriesOther 3).attemptsMade = 2
    ∧ (fetch_url_run oracleRetriesOther 3).sleeps = [1]
    ∧ (fetch_url_run oracleRetriesOther 3).result = .ok (str "ok") := by
  refine ⟨rfl, by decide, by decide, by decide⟩

/-- C6 (amended): each HTTP fetch makes at most 3 attempts; the backoff
sleeps grow by one second per successive retry (`1 + attempt`); every
retry is triggered by a transient HTTP status (429/500/502/503/504) **or
by a non-HTTP exception** (timeouts and other transport errors, which the
bare `except` arm also retries); a non-transient HTTP error on the first
attempt aborts immediately with no retry and no sleep. -/
theorem C6_retry_policy (oracle : Nat → FetchOutcome) :
    (fetch_url_run oracle 3).attemptsMade ≤ 3
    ∧ (fetch_url_run oracle 3).sleeps
      = (List.range ((fetch_url_run oracle 3).attemptsMade - 1)).map (fun i => 1 + i)
    ∧ (∀ i, i + 1 < (fetch_url_run oracle 3).attemptsMade → retrySignal (oracle i))
    ∧ (∀ c, oracle 0 = .httpError c → c ∉ transientCodes →
        (fetch_url_run oracle 3).attemptsMade = 1
        ∧ (fetch_url_run oracle 3).sleeps = []
        ∧ (fetch_url_run oracle 3).result = .httpFail c) := by
  have hmain := fetchGo_spec oracle 3 3 0 (by omega) (by omega) (by omega)
  refine ⟨hmain.1, hmain.2.1, hmain.2.2, ?_⟩
  intro c h0 hc
  rw [fetch_url_run, fetchGo, h0]
  dsimp only
  rw [if_neg (fun hand => hc hand.1)]
  exact ⟨rfl, rfl, rfl⟩

/-- C6 witness: a transient 503 then success — two attempts, one 1-second
sleep; and a hard 404 aborts at once. -/
def oracleTransientThenOk : Nat → FetchOutcome :=
  fun n => if n = 0 then .httpError 503 else .success (str "body")

/-- C6 witness theorem: the amended policy at two concrete oracles. -/
theorem C6_retry_policy_witness :
    (fetch_url_run oracleTransientThenOk 3).attemptsMade ≤ 3
    ∧ (fetch_url_run (fun _ => .httpError 404) 3).attemptsMade = 1 := by
  constructor
  · exact (C6_retry_policy oracleTransientThenOk).1
  · exact ((C6_retry_policy (fun _ => .httpError 404)).2.2.2 404 rfl (by decide)).1

/-- A strategy outcome that does not set a truthy transcript: a clean
`None`, a raised error, or a degenerate empty-text result. -/
def stalls : StratOutcome → Prop
  | .found t _ => t = []
  | .nothing => True
  | .error _ => True

instance (o : StratOutcome) : Decidable (stalls o) := by
  cases o with
  | found t s => exact inferInstanceAs (Decidable (t = []))
  | nothing => exact inferInstanceAs (Decidable True)
  | error m => exact inferInstanceAs (Decidable True)

theorem orchStep_truthy (st : OrchState) (l : List Char) (o : StratOutcome)
    (h : truthy st.transcript = true) : orchStep st l o = st := by
  rw [orchStep.eq_def, if_pos h]

theorem orch_keep (los : List (List Char × StratOutcome)) (st : OrchState)
    (h : truthy st.transcript = true) :
    los.foldl (fun s lo => orchStep s lo.1 lo.2) st = st := by
  induction los with
  | nil => rfl
  | cons lo los ih =>
    rw [List.foldl_cons, orchStep_truthy st lo.1 lo.2 h]
    exact ih

theorem orch_stalls (los : List (List Char × StratOutcome)) :
    ∀ st : OrchState, truthy st.transcript = false → (∀ lo ∈ los, stalls lo.2) →
      truthy (los.foldl (fun s lo => orchStep s lo.1 lo.2) st).transcript = false
      ∧ (los.foldl (fun s lo => orchStep s lo.1 lo.2) st).tool_errors
          = st.tool_errors ++ labeledErrors los := by
  induction los with
  | nil => intro st h _; exact ⟨h, by simp [labeledErrors]⟩
  | cons lo los ih =>
    intro st h hall
    have hlo : stalls lo.2 := hall lo (List.mem_cons_self lo los)
    rw [List.foldl_cons]
    have hrest : ∀ x ∈ los, stalls x.2 := fun x hx => hall x (List.mem_cons_of_mem lo hx)
    cases ho : lo.2 with
    | found t s =>
      have ht : t = [] := by rw [ho] at hlo; exact hlo
      subst ht
      have hstep : orchStep st lo.1 (.found [] s)
          = { st with transcript := some [], source := some s } := by
        rw [orchStep.eq_def, if_neg (by simp [h])]
      rw [hstep]
      have := ih { st with transcript := some [], source := some s } (by simp [truthy]) hrest
      refine ⟨this.1, ?_⟩
      rw [this.2]
      simp [labeledErrors, ho]
    | nothing =>
      have hstep : orchStep st lo.1 .nothing = st := by
        rw [orchStep.eq_def, if_neg (by simp [h])]
      rw [hstep]
      have := ih st h hrest
      refine ⟨this.1, ?_⟩
      rw [this.2]
      simp [labeledErrors, ho]
    | error m =>
      have hstep : orchStep st lo.1 (.error m)
          = { st with tool_errors := st.tool_errors ++ [lo.1 ++ str ": " ++ m] } := by
        rw [orchStep.eq_def, if_neg (by simp [h])]
      rw [hstep]
      have := ih { st with tool_errors := st.tool_errors ++ [lo.1 ++ str ": " ++ m] }
          h hrest
      refine ⟨this.1, ?_⟩
      rw [this.2]
      simp [labeledErrors, ho]

/-- After a stalled prefix, the first strategy returning a non-empty
transcript determines the terminal outcome, and no later outcome matters. -/
theorem orch_found_then (los1 los2 : List (List Char × StratOutcome))
    (l t s : List Char) (hstalls : ∀ lo ∈ los1, stalls lo.2) (ht : t ≠ []) :
    orchestrate (los1 ++ (l, .found t s) :: los2) = .success t s := by
  rw [orchestrate]
  have h1 := orch_stalls los1 ⟨none, none, []⟩ rfl hstalls
  rw [List.foldl_append, List.foldl_cons]
  have hstep : orchStep (los1.foldl (fun s lo => orchStep s lo.1 lo.2) ⟨none, none, []⟩)
      l (.found t s)
      = { los1.foldl (fun s lo => orchStep s lo.1 lo.2) ⟨none, none, []⟩ with
          transcript := some t, source := some s } := by
    rw [orchStep.eq_def, if_neg (by simp [h1.1])]
  rw [hstep, orch_keep los2 _ (by simp [truthy, isEmpty_false_of_ne_nil ht])]
  simp [isEmpty_false_of_ne_nil ht]

/-- C7: the four-strategy fallback chain stops at the first strategy that
returns a non-empty transcript (later strategies cannot affect the
result); errors are recorded in order while the chain moves on; and when
all four strategies stall, the terminal outcome is the accumulated ordered
error list when any strategy errored, and the plain no-transcript outcome
(empty error list) when all strategies cleanly found nothing. -/
theorem C7_fallback_chain :
    (∀ (o2 o3 o4 : StratOutcome) (t s : List Char), t ≠ [] →
      main_orchestrate (.found t s) o2 o3 o4 = .success t s)
    ∧ (∀ (o1 o3 o4 : StratOutcome) (t s : List Char), stalls o1 → t ≠ [] →
      main_orchestrate o1 (.found t s) o3 o4 = .success t s)
    ∧ (∀ (o1 o2 o4 : StratOutcome) (t s : List Char), stalls o1 → stalls o2 → t ≠ [] →
      main_orchestrate o1 o2 (.found t s) o4 = .success t s)
    ∧ (∀ (o1 o2 o3 : StratOutcome) (t s : List Char), stalls o1 → stalls o2 → stalls o3 →
        t ≠ [] →
      main_orchestrate o1 o2 o3 (.found t s) = .success t s)
    ∧ (∀ o1 o2 o3 o4 : StratOutcome, stalls o1 → stalls o2 → stalls o3 → stalls o4 →
      main_orchestrate o1 o2 o3 o4 =
        (if labeledErrors [(str "yt-dlp", o1), (str "timedtext", o2),
            (str "watch-page", o3), (str "youtube-transcript-api", o4)] = []
         then .noTranscript
         else .erroredFailure (labeledErrors [(str "yt-dlp", o1), (str "timedtext", o2),
            (str "watch-page", o3), (str "youtube-transcript-api", o4)]))) := by
  refine ⟨?_, ?_, ?_, ?_, ?_⟩
  · intro o2 o3 o4 t s ht
    exact orch_found_then [] [(str "timedtext", o2), (str "watch-page", o3),
      (str "youtube-transcript-api", o4)] (str "yt-dlp") t s (by simp) ht
  · intro o1 o3 o4 t s h1 ht
    exact orch_found_then [(str "yt-dlp", o1)] [(str "watch-page", o3),
      (str "youtube-transcript-api", o4)] (str "timedtext") t s (by simpa using h1) ht
  · intro o1 o2 o4 t s h1 h2 ht
    refine orch_found_then [(str "yt-dlp", o1), (str "timedtext", o2)]
      [(str "youtube-transcript-api", o4)] (str "watch-page") t s ?_ ht
    intro lo hlo
    rcases List.mem_cons.mp hlo with rfl | hlo2
    · exact h1
    · rcases List.mem_cons.mp hlo2 with rfl | hlo3
      · exact h2
      · cases hlo3
  · intro o1 o2 o3 t s h1 h2 h3 ht
    refine orch_found_then [(str "yt-dlp", o1), (str "timedtext", o2), (str "watch-page", o3)]
      [] (str "youtube-transcript-api") t s ?_ ht
    intro lo hlo
    rcases List.mem_cons.mp hlo with rfl | hlo2
    · exact h1
    · rcases List.mem_cons.mp hlo2 with rfl | hlo3
      · exact h2
      · rcases List.mem_cons.mp hlo3 with rfl | hlo4
        · exact h3
        · cases hlo4
  · intro o1 o2 o3 o4 h1 h2 h3 h4
    have hall : ∀ lo ∈ [(str "yt-dlp", o1), (str "timedtext", o2),
        (str "watch-page", o3), (str "youtube-transcript-api", o4)], stalls lo.2 := by
      intro lo hlo
      rcases List.mem_cons.mp hlo with rfl | hlo2
      · exact h1
      · rcases List.mem_cons.mp hlo2 with rfl | hlo3
        · exact h2
        · rcases List.mem_cons.mp hlo3 with rfl | hlo4
          · exact h3
          · rcases List.mem_cons.mp hlo4 with rfl | hlo5
            · exact h4
            · cases hlo5
    have hfin := orch_stalls [(str "yt-dlp", o1), (str "timedtext", o2),
        (str "watch-page", o3), (str "youtube-transcript-api", o4)] ⟨none, none, []⟩ rfl hall
    rw [main_orchestrate, orchestrate]
    cases htr : ([(str "yt-dlp", o1), (str "timedtext", o2), (str "watch-page", o3),
        (str "youtube-transcript-api", o4)].foldl
          (fun s lo => orchStep s lo.1 lo.2) ⟨none, none, []⟩).transcript with
    | none =>
      rw [htr] at hfin
      dsimp only
      rw [hfin.2]
      simp only [List.nil_append]
      by_cases he : labeledErrors [(str "yt-dlp", o1), (str "timedtext", o2),
          (str "watch-page", o3), (str "youtube-transcript-api", o4)] = []
      · rw [if_pos (by simp [he]), if_pos he]
      · rw [if_neg (by simp [he]), if_neg he]
    | some t =>
      rw [htr] at hfin
      have hte : t.isEmpty = true := by
        have := hfin.1
        rw [truthy] at this
        simpa using this
      dsimp only
      rw [if_pos hte, hfin.2]
      simp only [List.nil_append]
      by_cases he : labeledErrors [(str "yt-dlp", o1), (str "timedtext", o2),
          (str "watch-page", o3), (str "youtube-transcript-api", o4)] = []
      · rw [if_pos (by simp [he]), if_pos he]
      · rw [if_neg (by simp [he]), if_neg he]

/-- C7 witness: strategy 1 errors, strategy 2 succeeds; and four clean
no-caption outcomes give the plain no-transcript exit. -/
theorem C7_fallback_chain_witness :
    main_orchestrate (.error (str "boom")) (.found (str "T") (str "S")) .nothing .nothing
      = .success (str "T") (str "S")
    ∧ main_orchestrate .nothing .nothing .nothing .nothing = .noTranscript := by
  constructor
  · exact C7_fallback_chain.2.1 (.error (str "boom")) .nothing .nothing
      (str "T") (str "S") trivial (by decide)
  · have h := C7_fallback_chain.2.2.2.2 .nothing .nothing .nothing .nothing
      trivial trivial trivial trivial
    rw [h]
    decide

/-! ### Segment bound invariants (C9) -/

theorem Frac.le_refl (a : Frac) : Frac.le a a := Int.le_refl _

theorem Frac.zero_le_iff (x : Frac) : Frac.le (Frac.ofNat 0) x ↔ 0 ≤ x.num := by
  rw [Frac.le, Frac.ofNat]
  simp

theorem parse_timestamp_nonneg (v : List Char) :
    Frac.le (Frac.ofNat 0) (parse_timestamp v) := by
  rw [parse_timestamp]
  split
  · split
    · rw [Frac.zero_le_iff, Frac.add, Frac.ofNat]
      positivity
    · rw [Frac.zero_le_iff, Frac.ofNat]; simp
  · split
    · rw [Frac.zero_le_iff, Frac.add, Frac.ofNat]
      positivity
    · rw [Frac.zero_le_iff, Frac.ofNat]; simp
  · rw [Frac.zero_le_iff, Frac.ofNat]; simp

theorem Frac.le_add_right (s d : Frac) (hd : Frac.le (Frac.ofNat 0) d) :
    Frac.le s (Frac.add s d) := by
  rw [Frac.zero_le_iff] at hd
  rw [Frac.le, Frac.add]
  have hsden : (0 : Int) ≤ (s.den : Int) := Int.natCast_nonneg _
  have hdden : (0 : Int) ≤ (d.den : Int) := Int.natCast_nonneg _
  push_cast
  nlinarith [mul_nonneg hd (mul_nonneg hsden hsden)]

/-- The timestamp pair the VTT loop would extract from one raw line, after
the loop's own BOM-strip / rstrip / strip normalisation. -/
def vttLineMatch (raw_line : List Char) : Option (List Char × List Char) :=
  reSearchArrow (pyStrip (pyRstrip (stripCharBoth '﻿' raw_line)))

/-- A raw line is cue-ordered when any timestamp pair it carries parses to
`start ≤ end`. -/
def cueOrdered (raw_line : List Char) : Bool :=
  match vttLineMatch raw_line with
  | some p => decide (Frac.le (parse_timestamp p.1) (parse_timestamp p.2))
  | none => true

/-- The C9 invariant over the VTT loop state. -/
def vttInv (st : VttState) : Prop :=
  (∀ seg ∈ st.segments, Frac.le (Frac.ofNat 0) seg.start ∧ Frac.le seg.start seg.endTime)
  ∧ (∀ cs, st.current_start = some cs →
      Frac.le (Frac.ofNat 0) cs ∧ ∀ ce, st.current_end = some ce → Frac.le cs ce)

theorem vttEmit_inv (st : VttState) (h : vttInv st) :
    ∀ seg ∈ vttEmit st, Frac.le (Frac.ofNat 0) seg.start ∧ Frac.le seg.start seg.endTime := by
  rw [vttEmit]
  cases hcs : st.current_start with
  | none => exact h.1
  | some cs =>
    intro seg hseg
    dsimp only at hseg
    rcases List.mem_append.mp hseg with hmem | hmem
    · exact h.1 seg hmem
    · have hcsp := h.2 cs hcs
      have hseg2 : seg = ⟨cs, orStart st.current_end cs,
          if st.current_lines.isEmpty then []
          else clean_text (pyJoinSpace st.current_lines)⟩ := by
        simpa using hmem
      subst hseg2
      dsimp only
      refine ⟨hcsp.1, ?_⟩
      rw [orStart.eq_def]
      cases hce : st.current_end with
      | none => exact Frac.le_refl cs
      | some e =>
        dsimp only
        split
        · exact Frac.le_refl cs
        · exact hcsp.2 e hce

theorem vttStep_inv (st : VttState) (raw : List Char)
    (hco : cueOrdered raw = true) (h : vttInv st) : vttInv (vttStep st raw) := by
  simp only [vttStep]
  split
  · refine ⟨vttEmit_inv st h, ?_⟩
    intro cs hcs
    cases hcs
  · split
    · exact h
    · split
      · exact h
      · split
        · exact ⟨h.1, h.2⟩
        · split
          · exact h
          · split
            · rename_i p hm
              refine ⟨h.1, ?_⟩
              intro cs hcs
              have hcs2 : parse_timestamp p.1 = cs := by
                simpa using hcs
              subst hcs2
              refine ⟨parse_timestamp_nonneg _, ?_⟩
              intro ce hce
              have hce2 : parse_timestamp p.2 = ce := by
                simpa using hce
              subst hce2
              rw [cueOrdered, vttLineMatch, hm] at hco
              exact of_decide_eq_true hco
            · split
              · exact h
              · exact ⟨h.1, h.2⟩

theorem vttFold_inv (lines : List (List Char)) :
    ∀ st : VttState, (∀ l ∈ lines, cueOrdered l = true) → vttInv st →
      vttInv (lines.foldl vttStep st) := by
  induction lines with
  | nil => intro st _ h; exact h
  | cons l lines ih =>
    intro st hall h
    rw [List.foldl_cons]
    exact ih (vttStep st l)
      (fun x hx => hall x (List.mem_cons_of_mem l hx))
      (vttStep_inv st l (hall l (List.mem_cons_self l lines)) h)

/-- Segments of the cue-block parser are well-bounded whenever every input
line's timestamp pair is ordered. -/
theorem parse_vtt_bounds (input : List Char)
    (h : ∀ l ∈ pySplitlines input, cueOrdered l = true) :
    ∀ seg ∈ parse_vtt_to_segments input,
      Frac.le (Frac.ofNat 0) seg.start ∧ Frac.le seg.start seg.endTime := by
  rw [parse_vtt_to_segments]
  refine vttEmit_inv _ (vttFold_inv (pySplitlines input) _ h ⟨?_, ?_⟩)
  · intro seg hseg
    cases hseg
  · intro cs hcs
    cases hcs

/-- The attribute named `key`, when it parses as a float, is non-negative
(a missing attribute defaults to 0). -/
def attrNonnegB (n : XmlElem) (key : List Char) : Bool :=
  match attrFloat n key with
  | .ok v => decide (Frac.le (Frac.ofNat 0) v)
  | .error _ => true

theorem parseTextNodes_bounds :
    ∀ (nodes : List XmlElem) (segs : List Segment),
      parseTextNodes nodes = .ok segs →
      (∀ n ∈ nodes, attrNonnegB n (str "start") = true ∧ attrNonnegB n (str "dur") = true) →
      ∀ seg ∈ segs, Frac.le (Frac.ofNat 0) seg.start ∧ Frac.le seg.start seg.endTime := by
  intro nodes
  induction nodes with
  | nil =>
    intro segs hok _
    rw [parseTextNodes] at hok
    cases hok
    intro seg hseg
    cases hseg
  | cons node rest ih =>
    intro segs hok hall
    rw [parseTextNodes] at hok
    cases hs : attrFloat node (str "start") with
    | error e => rw [hs] at hok; cases hok
    | ok v =>
      rw [hs] at hok
      cases hd : attrFloat node (str "dur") with
      | error e => rw [hd] at hok; cases hok
      | ok d =>
        rw [hd] at hok
        cases hr : parseTextNodes rest with
        | error e => rw [hr] at hok; cases hok
        | ok segs' =>
          rw [hr] at hok
          cases hok
          have hnode := hall node (List.mem_cons_self node rest)
          have hv : Frac.le (Frac.ofNat 0) v := by
            have := hnode.1
            rw [attrNonnegB, hs] at this
            exact of_decide_eq_true this
          have hdur : Frac.le (Frac.ofNat 0) d := by
            have := hnode.2
            rw [attrNonnegB, hd] at this
            exact of_decide_eq_true this
          intro seg hseg
          rcases List.mem_cons.mp hseg with rfl | hmem
          · exact ⟨hv, Frac.le_add_right v d hdur⟩
          · exact ih segs' hr (fun x hx => hall x (List.mem_cons_of_mem node hx)) seg hmem

/-- Segments of the timed-XML parser are well-bounded whenever the parse
succeeds and every text node's `start` and `dur` attributes are
non-negative. -/
theorem parse_xml_bounds (xmlParse : List Char → Option XmlElem) (input : List Char)
    (segs : List Segment)
    (hok : parse_transcript_xml xmlParse input = .ok segs)
    (hattr : ∀ root, xmlParse input = some root →
      ∀ n ∈ root.children.filter (fun n => n.tag == str "text"),
        attrNonnegB n (str "start") = true ∧ attrNonnegB n (str "dur") = true) :
    ∀ seg ∈ segs, Frac.le (Frac.ofNat 0) seg.start ∧ Frac.le seg.start seg.endTime := by
  rw [parse_transcript_xml] at hok
  cases hx : xmlParse input with
  | none =>
    rw [hx] at hok
    cases hok
    intro seg hseg
    cases hseg
  | some root =>
    rw [hx] at hok
    exact parseTextNodes_bounds _ segs hok (hattr root hx)

/-- C9 counterexample: a syntactically valid cue whose end timestamp
precedes its start yields a segment with `end < start` — the parsers do
not enforce the Segment invariant. -/
theorem C9_counterexample :
    (parse_vtt_to_segments (str "00:00:05.000 --> 00:00:01.000\nhi")).map Segment.text
      = [str "hi"]
    ∧ ((parse_vtt_to_segments (str "00:00:05.000 --> 00:00:01.000\nhi")).all
        (fun s => decide (Frac.le s.start s.endTime))) = false := by
  refine ⟨by decide, by decide⟩

/-- C9 (amended): every segment of the cue-block parser satisfies
`0 ≤ start` and `start ≤ end` **provided** each input line's timestamp
pair parses in order (the code itself never checks this); every segment of
the timed-XML parser satisfies them **provided** the `start` and `dur`
attributes parse to non-negative values. -/
theorem C9_segment_bounds :
    (∀ input : List Char, (∀ l ∈ pySplitlines input, cueOrdered l = true) →
      ∀ seg ∈ parse_vtt_to_segments input,
        Frac.le (Frac.ofNat 0) seg.start ∧ Frac.le seg.start seg.endTime)
    ∧ (∀ (xmlParse : List Char → Option XmlElem) (input : List Char) (segs : List Segment),
        parse_transcript_xml xmlParse input = .ok segs →
        (∀ root, xmlParse input = some root →
          ∀ n ∈ root.children.filter (fun n => n.tag == str "text"),
            attrNonnegB n (str "start") = true ∧ attrNonnegB n (str "dur") = true) →
        ∀ seg ∈ segs, Frac.le (Frac.ofNat 0) seg.start ∧ Frac.le seg.start seg.endTime) :=
  ⟨parse_vtt_bounds, parse_xml_bounds⟩

/-- The XML collaborator for the C9 witness: one well-formed text node
with `start="1.5"` and `dur="2"`. -/
def xmlParseDemo : List Char → Option XmlElem := fun s =>
  if s = str "<transcript><text start=\"1.5\" dur=\"2\">ok</text></transcript>" then
    some (.mk (str "transcript") [] none
      [.mk (str "text") [(str "start", str "1.5"), (str "dur", str "2")] (some (str "ok")) []])
  else none

/-- The segment list `xmlParseDemo`'s payload parses to. -/
def demoXmlSegs : List Segment :=
  [⟨⟨15, 10, by decide⟩, ⟨35, 10, by decide⟩, str "ok"⟩]

/-- C9 witness theorem: the bounds at a concrete well-formed cue payload
and a concrete well-formed timed-XML payload. -/
theorem C9_segment_bounds_witness :
    (∀ seg ∈ parse_vtt_to_segments (str "00:00:01.000 --> 00:00:02.500\nhello"),
      Frac.le (Frac.ofNat 0) seg.start ∧ Frac.le seg.start seg.endTime)
    ∧ (∀ seg ∈ demoXmlSegs,
      Frac.le (Frac.ofNat 0) seg.start ∧ Frac.le seg.start seg.endTime) := by
  constructor
  · exact C9_segment_bounds.1 (str "00:00:01.000 --> 00:00:02.500\nhello") (by decide)
  · refine C9_segment_bounds.2 xmlParseDemo
      (str "<transcript><text start=\"1.5\" dur=\"2\">ok</text></transcript>")
      demoXmlSegs rfl ?_
    intro root hroot
    cases hroot
    decide
